import Mathlib

/-!
# Verification of the N-Queens CSP solver (`p2_n_queens/n_queens.py`)

Shallow embedding of the solver: an `NQueensCSP` object is represented by its
board size `n`, its partial assignment (a key-unique association list
`row ↦ column`, mirroring a Python dict in insertion order), and its domain
map `row ↦ Finset of candidate columns`.

Python's `random.choice(l)` (and `random.randint(0, n-1)`) are modelled by an
oracle `os : Nat → List Nat → Nat`: the `t`-th random call on list `l` returns
`l[os t l % l.length]`.  Every run of the Python program corresponds to some
oracle and conversely, so "for all oracles" means "for every possible random
behaviour" and a concrete oracle exhibits one possible behaviour.

Python set iteration (`for col in self.domains[row]`, `list(...)`) is modelled
as ascending order (`Finset.sort (· ≤ ·)`), which is what CPython produces for
sets of small ints; none of the verified claims depend on this order.

Unbounded loops (`ac3`'s work queue, the recursive `backtrack`) are modelled
with explicit fuel; the fuel bounds are generous enough that the fuel-out
branch is unreachable (proved below for `ac3`; `backtrack`'s recursion depth
is at most `n + 1` since each level commits one new row).
-/

namespace NQ

/-- Association list `row ↦ col`, modelling a Python dict in insertion order. -/
abbrev AList := List (Nat × Nat)

/-- Domain map: for each row, the set of candidate columns. -/
abbrev Domains := Nat → Finset Nat

/-- Dict lookup (`assignment[row]` / `row in assignment`). -/
def alookup : AList → Nat → Option Nat
  | [], _ => none
  | (k, v) :: ps, r => if k = r then some v else alookup ps r

/-- Dict keys, in insertion order. -/
def akeys (a : AList) : List Nat := a.map Prod.fst

/-- Dict update `a[r] = c`: replaces the entry in place if the key exists
(keeping its position, as Python dicts do), else appends. -/
def dinsert (a : AList) (r c : Nat) : AList :=
  match a with
  | [] => [(r, c)]
  | (k, v) :: ps => if k = r then (r, c) :: ps else (k, v) :: dinsert ps r c

/-- Dict deletion `del a[r]`. -/
def derase (a : AList) (r : Nat) : AList := a.filter (fun p => p.1 ≠ r)

/-- Queens at `(r1, c1)` and `(r2, c2)` attack each other: same column or same
diagonal (`c1 == c2 or abs(r1-r2) == abs(c1-c2)` in the source). -/
def attacksB (r1 c1 r2 c2 : Nat) : Bool :=
  c1 == c2 || Nat.dist r1 r2 == Nat.dist c1 c2

/-- `NQueensCSP.count_conflicts(row, col, assignment)`: number of queens in the
assignment, other than row `row` itself, attacking `(row, col)`. -/
def countConflicts (row col : Nat) (a : AList) : Nat :=
  a.countP (fun p => p.1 != row && attacksB p.1 p.2 row col)

/-- `NQueensCSP.is_consistent(row, col, assignment)`: no queen of the
assignment attacks `(row, col)`. -/
def isConsistent (row col : Nat) (a : AList) : Bool :=
  a.all (fun p => !(p.2 == col || Nat.dist p.1 row == Nat.dist p.2 col))

/-- A cell `(r, c)` survives `initialize_domains` pruning: no entry of the
partial assignment attacks it.  (The source removes, for each fixed
`(row, col)`, the values `col`, `col ± |r - row|` from each free row `r`'s
domain; over `{0, ..., n-1}` the net effect of those removal loops is this
filter, since removals of different origins commute.) -/
def freeCell (P : AList) (r c : Nat) : Bool :=
  P.all (fun p => !(attacksB p.1 p.2 r c))

/-- Domain map after `__init__` + `initialize_domains`: a fixed row's domain is
the singleton of its assigned column; a free row's domain is every column of
`{0, ..., n-1}` not attacked by a fixed queen. -/
def initDomains (n : Nat) (P : AList) : Domains := fun r =>
  match alookup P r with
  | some c => {c}
  | none => (Finset.range n).filter (fun c => freeCell P r c = true)

/-- Ascending iteration order of a Python set of small ints: a sorted listing
of the `Finset`.  (Kernel-computable counterpart of `Finset.sort (· ≤ ·)`:
insertion sort lifted to the multiset quotient.) -/
def fsort (s : Finset Nat) : List Nat :=
  Quot.liftOn s.val (fun l => List.insertionSort (· ≤ ·) l) (fun l l' h =>
    List.eq_of_perm_of_sorted
      ((List.perm_insertionSort _ l).trans ((List.Perm.trans h (List.perm_insertionSort _ l').symm)))
      (List.sorted_insertionSort _ l) (List.sorted_insertionSort _ l'))

/-- The element produced by `next(iter(s))` for a singleton set `s`. -/
def sElem (s : Finset Nat) : Nat := ((fsort s).headD 0)

/-- `col_i` conflicts with every value in `row_j`'s domain (the `all_conflict`
flag of `revise`'s general branch). -/
def conflictAll (i j ci : Nat) (dj : Finset Nat) : Bool :=
  (fsort dj).all (fun cj => ci == cj || Nat.dist i j == Nat.dist ci cj)

/-- The singleton-shortcut branch of `revise`: for `row_j`'s domain a
singleton `{cj}`, remove `cj` and the in-range diagonal cells `cj ± |i-j|`
from `row_i`'s domain, one conditioned removal at a time, accumulating the
`revised` flag exactly as the source does. -/
def reviseSingle (n i j : Nat) (d : Domains) : Finset Nat × Bool :=
  let cj := sElem (d j)
  let dd := Nat.dist i j
  let p1 := if cj ∈ d i then ((d i).erase cj, true) else (d i, false)
  let p2 := if cj + dd < n ∧ (cj + dd) ∈ p1.1 then (p1.1.erase (cj + dd), true) else p1
  if dd ≤ cj ∧ (cj - dd) ∈ p2.1 then (p2.1.erase (cj - dd), true) else p2

/-- The general branch of `revise`: remove each value of `row_i`'s domain
conflicting with every value of `row_j`'s domain (the loop over
`list(self.domains[row_i])` removes exactly the filter set, and the flag is
set iff some value was removed). -/
def reviseGenImpl (i j : Nat) (d : Domains) : Finset Nat × Bool :=
  let R := (d i).filter (fun ci => conflictAll i j ci (d j))
  ((d i) \ R, decide (R ≠ ∅))

/-- `NQueensCSP.revise(row_i, row_j)`: returns the new domain map and the
`revised` flag, dispatching on whether `row_j`'s domain is a singleton. -/
def revise (n i j : Nat) (d : Domains) : Domains × Bool :=
  if (d j).card = 1 then
    (Function.update d i (reviseSingle n i j d).1, (reviseSingle n i j d).2)
  else
    (Function.update d i (reviseGenImpl i j d).1, (reviseGenImpl i j d).2)

/-- For claim C9: `revise` with the general branch applied unconditionally. -/
def reviseGeneral (i j : Nat) (d : Domains) : Domains × Bool :=
  (Function.update d i (reviseGenImpl i j d).1, (reviseGenImpl i j d).2)

/-- The initial AC3 work queue: all ordered pairs `(i, j)`, `i ≠ j`. -/
def initQueue (n : Nat) : List (Nat × Nat) :=
  (List.range n).flatMap (fun i => ((List.range n).filter (fun j => j != i)).map (fun j => (i, j)))

/-- The AC3 work-queue loop, with explicit fuel (`none` = fuel exhausted,
which `ac3_terminates` below shows is unreachable for the fuel used).
Mirrors the source: pop a pair, revise; on a change with empty domain return
failure, on a change re-enqueue `(k, row_i)` for `k ≠ row_i, row_j`. -/
def ac3go (n : Nat) : Nat → List (Nat × Nat) → Domains → Option (Bool × Domains)
  | 0, _, _ => none
  | _ + 1, [], d => some (true, d)
  | fuel + 1, (i, j) :: q, d =>
    if (revise n i j d).2 then
      if (revise n i j d).1 i = ∅ then some (false, (revise n i j d).1)
      else ac3go n fuel
        (q ++ (((List.range n).filter (fun k => k != i && k != j)).map (fun k => (k, i))))
        (revise n i j d).1
    else ac3go n fuel q d

/-- Total size of the domains of rows `0..n-1`. -/
def totalCard (n : Nat) (d : Domains) : Nat :=
  ∑ r ∈ Finset.range n, (d r).card

/-- Fuel sufficient for `ac3go` to run to completion (each queue pop either
consumes one queue entry, or strictly shrinks a domain while enqueueing at
most `n` new entries). -/
def ac3Fuel (n : Nat) (q : List (Nat × Nat)) (d : Domains) : Nat :=
  q.length + n * totalCard n d + 1

/-- `NQueensCSP.ac3()`. -/
def ac3 (n : Nat) (d : Domains) : Option (Bool × Domains) :=
  ac3go n (ac3Fuel n (initQueue n) d) (initQueue n) d

/-- Python `min(xs, key=f)`: the first element attaining the minimum
(junk value 0 on the empty list, where Python would raise). -/
def minByFirst (f : Nat → Nat) : List Nat → Nat
  | [] => 0
  | x :: xs => xs.foldl (fun best y => if f y < f best then y else best) x

/-- `NQueensCSP.select_unassigned_variable` (MRV): among unassigned rows, the
first one with the smallest domain. -/
def selectUnassigned (n : Nat) (a : AList) (d : Domains) : Nat :=
  minByFirst (fun r => (d r).card) ((List.range n).filter (fun r => (alookup a r).isNone))

/-- Number of `(other_row, other_col)` domain pairs a queen at `(row, col)`
would eliminate (the LCV conflict count). -/
def lcvConflicts (n row col : Nat) (a : AList) (d : Domains) : Nat :=
  ((List.range n).map (fun other =>
    if other != row && (alookup a other).isNone then
      (fsort (d other)).countP (fun oc => attacksB row col other oc)
    else 0)).sum

/-- `NQueensCSP.order_domain_values` (LCV): domain values of `row`, ascending
stably by their conflict count (Python's `sort` is stable; a stable sort's
output is unique, so insertion sort reproduces it). -/
def orderDomainValues (n row : Nat) (a : AList) (d : Domains) : List Nat :=
  (List.insertionSort (fun p q : Nat × Nat => p.2 ≤ q.2)
    ((fsort (d row)).map (fun col => (col, lcvConflicts n row col a d)))).map Prod.fst

/-- The values `forward_check` prunes from row `r`'s domain for a queen at
`(row, col)`, in iteration order. -/
def pruneRow (row col r : Nat) (s : Finset Nat) : List Nat :=
  (fsort s).filter (fun oc => attacksB row col r oc)

/-- The loop of `NQueensCSP.forward_check`: walks the rows, pruning each free
row's domain of values attacked by `(row, col)` and recording the pruned
values; fails as soon as a domain empties.  Returns
`(success flag, domains, pruning record)`. -/
def fcGo (row col : Nat) (a : AList) :
    List Nat → Domains → List (Nat × List Nat) → Bool × Domains × List (Nat × List Nat)
  | [], d, pr => (true, d, pr)
  | r :: rs, d, pr =>
    if r != row && (alookup a r).isNone then
      let pv := pruneRow row col r (d r)
      let d' := Function.update d r ((d r).filter (fun oc => !(attacksB row col r oc)))
      let pr' := if pv.isEmpty then pr else pr ++ [(r, pv)]
      if d' r = ∅ then (false, d', pr')
      else fcGo row col a rs d' pr'
    else fcGo row col a rs d pr

/-- `NQueensCSP.forward_check(row, col, assignment, pruned)` with a fresh
pruning record (as in `backtrack`, which passes `local_pruned = {}`). -/
def forwardCheck (n row col : Nat) (a : AList) (d : Domains) :
    Bool × Domains × List (Nat × List Nat) :=
  fcGo row col a (List.range n) d []

/-- Restoring a pruning record: `domains[r].update(cols)` for each record
entry (set union, as in the source's backtracking restore). -/
def restoreDoms (d : Domains) (pr : List (Nat × List Nat)) : Domains :=
  pr.foldl (fun dd p => Function.update dd p.1 (dd p.1 ∪ p.2.toFinset)) d

/-- The candidate-value loop of `NQueensCSP.backtrack`, parameterised by the
recursive call `bt`.  For each consistent candidate: commit the row, forward
check, recurse; on failure restore exactly this frame's pruned values and
uncommit the row, then try the next value.  Returns the result together with
the final assignment and domain states. -/
def tryValues (n row : Nat) (bt : AList → Domains → Option AList × AList × Domains)
    (a : AList) (d : Domains) : List Nat → Option AList × AList × Domains
  | [] => (none, a, d)
  | col :: cols =>
    if isConsistent row col a then
      let a1 := dinsert a row col
      let fc := forwardCheck n row col a1 d
      let res := if fc.1 then bt a1 fc.2.1 else (none, a1, fc.2.1)
      match res.1 with
      | some sol => (some sol, res.2.1, res.2.2)
      | none => tryValues n row bt (derase res.2.1 row) (restoreDoms res.2.2 fc.2.2) cols
    else tryValues n row bt a d cols

/-- `NQueensCSP.backtrack`, with fuel bounding the recursion depth (each level
commits one more row, so depth never exceeds `n + 1` from a partial
assignment with at most `n` rows). -/
def backtrackAux (n : Nat) : Nat → AList → Domains → Option AList × AList × Domains
  | 0, a, d => (none, a, d)
  | fuel + 1, a, d =>
    if a.length = n then (some a, a, d)
    else
      tryValues n (selectUnassigned n a d) (backtrackAux n fuel) a d
        (orderDomainValues n (selectUnassigned n a d) a d)

/-- `NQueensCSP.backtrack_search()`: run AC3, then backtracking from the
partial assignment. -/
def backtrackSearch (n : Nat) (P : AList) : Option AList :=
  match ac3 n (initDomains n P) with
  | some (true, d) => (backtrackAux n (n + 1) P d).1
  | some (false, _) => none
  | none => none

/-- `random.choice(l)` under oracle `os` at call number `t`. `random.randint(0, n-1)`
is `rchoice os t (List.range n)`. -/
def rchoice (os : Nat → List Nat → Nat) (t : Nat) (l : List Nat) : Nat :=
  l.getD (os t l % l.length) 0

/-- One step of the `(min_conflicts, best_cols)` accumulation loop of the
source (`float('inf')` start is the `none` state). -/
def bestStep (f : Nat → Nat) (st : Option (Nat × List Nat)) (c : Nat) :
    Option (Nat × List Nat) :=
  match st with
  | none => some (f c, [c])
  | some (m, bl) =>
    if f c < m then some (f c, [c])
    else if f c = m then some (m, bl ++ [c]) else some (m, bl)

/-- The full `(min, best list)` fold over the candidate columns. -/
def bestFold (f : Nat → Nat) (cols : List Nat) : Option (Nat × List Nat) :=
  cols.foldl (bestStep f) none

/-- The seeding loop of `min_conflicts`: each free row (in row order) gets the
domain column with the fewest conflicts against the current assignment, ties
broken by `random.choice`; a row with an empty domain gets
`random.randint(0, n-1)`.  `t` is the random-call counter. -/
def seedGo (n : Nat) (os : Nat → List Nat → Nat) (d : Domains) :
    List Nat → AList → Nat → AList × Nat
  | [], a, t => (a, t)
  | r :: rs, a, t =>
    if (alookup a r).isSome then seedGo n os d rs a t
    else
      let cols := fsort (d r)
      if cols.isEmpty then
        seedGo n os d rs (dinsert a r (rchoice os t (List.range n))) (t + 1)
      else
        let bl := ((bestFold (fun c => countConflicts r c a) cols).map Prod.snd).getD []
        seedGo n os d rs (dinsert a r (rchoice os t bl)) (t + 1)

/-- The rows currently in conflict, excluding the fixed rows (the repair loop
only examines non-fixed rows).  `(alookup a r).getD 0` models `assignment[row]`,
total in every reachable state (the assignment is complete after seeding). -/
def conflictedRows (n : Nat) (fixed : List Nat) (a : AList) : List Nat :=
  (List.range n).filter
    (fun r => !(fixed.contains r) && decide (0 < countConflicts r ((alookup a r).getD 0) a))

/-- The repair loop of `min_conflicts`, `steps` iterations remaining: if no
non-fixed row is in conflict return the assignment; else pick a random
conflicted row and move it to a minimum-conflict column of the full column
range (the conflict count for a candidate column is taken with the row
temporarily reassigned, as in the source; `count_conflicts` skips the row's
own entry). -/
def mcLoop (n : Nat) (os : Nat → List Nat → Nat) (fixed : List Nat) :
    Nat → AList → Nat → Option AList
  | 0, _, _ => none
  | steps + 1, a, t =>
    let cr := conflictedRows n fixed a
    if cr.isEmpty then some a
    else
      let row := rchoice os t cr
      let bl := ((bestFold (fun c => countConflicts row c (dinsert a row c))
        (List.range n)).map Prod.snd).getD []
      let col := rchoice os (t + 1) bl
      mcLoop n os fixed steps (dinsert a row col) (t + 2)

/-- `NQueensCSP.min_conflicts(max_steps)`. -/
def minConflicts (n : Nat) (P : AList) (os : Nat → List Nat → Nat)
    (maxSteps : Nat) : Option AList :=
  let s := seedGo n os (initDomains n P) (List.range n) P 0
  mcLoop n os (akeys P) maxSteps s.1 s.2

/-- `NQueensCSP.solve()`: backtracking search for `n ≤ 100`, min-conflicts
with `max_steps = n * 100` for larger boards. -/
def solve (n : Nat) (P : AList) (os : Nat → List Nat → Nat) : Option AList :=
  if n ≤ 100 then backtrackSearch n P else minConflicts n P os (n * 100)


/-! ## Basic lemmas: the attack relation, dict operations, set listing -/

/-- The attack relation as a proposition. -/
def Attacks (r1 c1 r2 c2 : Nat) : Prop := c1 = c2 ∨ Nat.dist r1 r2 = Nat.dist c1 c2

instance (r1 c1 r2 c2 : Nat) : Decidable (Attacks r1 c1 r2 c2) := by
  unfold Attacks; infer_instance

theorem attacksB_iff {r1 c1 r2 c2 : Nat} : attacksB r1 c1 r2 c2 = true ↔ Attacks r1 c1 r2 c2 := by
  simp [attacksB, Attacks]

theorem attacks_symm {r1 c1 r2 c2 : Nat} (h : Attacks r1 c1 r2 c2) : Attacks r2 c2 r1 c1 := by
  rcases h with h | h
  · exact Or.inl h.symm
  · exact Or.inr (by rw [Nat.dist_comm r2 r1, Nat.dist_comm c2 c1]; exact h)

theorem alookup_eq_none {a : AList} {r : Nat} : alookup a r = none ↔ r ∉ akeys a := by
  induction a with
  | nil => simp [alookup, akeys]
  | cons p ps ih =>
    obtain ⟨k, v⟩ := p
    by_cases h : k = r <;> simp [alookup, akeys, h, ih, eq_comm (a := r) (b := k)]

theorem alookup_isSome {a : AList} {r : Nat} : (alookup a r).isSome = true ↔ r ∈ akeys a := by
  rw [Option.isSome_iff_ne_none, ne_eq, alookup_eq_none]
  exact not_not

theorem alookup_mem {a : AList} {r c : Nat} (h : alookup a r = some c) : (r, c) ∈ a := by
  induction a with
  | nil => simp [alookup] at h
  | cons p ps ih =>
    obtain ⟨k, v⟩ := p
    by_cases hk : k = r
    · subst hk; simp [alookup] at h; simp [h]
    · simp [alookup, hk] at h; simp [ih h]

theorem mem_alookup {a : AList} {r c : Nat} (hnd : (akeys a).Nodup) (h : (r, c) ∈ a) :
    alookup a r = some c := by
  induction a with
  | nil => simp at h
  | cons p ps ih =>
    obtain ⟨k, v⟩ := p
    simp only [akeys, List.map_cons, List.nodup_cons] at hnd
    rcases List.mem_cons.1 h with h | h
    · injection h with h1 h2
      subst h1; subst h2
      simp [alookup]
    · have hkr : k ≠ r := by
        rintro rfl
        exact hnd.1 (by simpa using List.mem_map_of_mem Prod.fst h)
      simp [alookup, hkr, ih hnd.2 h]

theorem dinsert_eq_append {a : AList} {r c : Nat} (h : alookup a r = none) :
    dinsert a r c = a ++ [(r, c)] := by
  induction a with
  | nil => simp [dinsert]
  | cons p ps ih =>
    obtain ⟨k, v⟩ := p
    by_cases hk : k = r
    · simp [alookup, hk] at h
    · simp [alookup, hk] at h; simp [dinsert, hk, ih h]

theorem alookup_dinsert_self {a : AList} {r c : Nat} : alookup (dinsert a r c) r = some c := by
  induction a with
  | nil => simp [dinsert, alookup]
  | cons p ps ih =>
    obtain ⟨k, v⟩ := p
    by_cases hk : k = r <;> simp [dinsert, alookup, hk, ih]

theorem alookup_dinsert_ne {a : AList} {r c r' : Nat} (h : r' ≠ r) :
    alookup (dinsert a r c) r' = alookup a r' := by
  induction a with
  | nil => simp [dinsert, alookup, Ne.symm h]
  | cons p ps ih =>
    obtain ⟨k, v⟩ := p
    by_cases hk : k = r
    · subst hk
      simp [dinsert, alookup, Ne.symm h]
    · simp only [dinsert, if_neg hk]
      by_cases hk' : k = r' <;> simp [alookup, hk', ih]

theorem akeys_dinsert_mem {a : AList} {r c : Nat} (h : r ∈ akeys a) :
    akeys (dinsert a r c) = akeys a := by
  induction a with
  | nil => simp [akeys] at h
  | cons p ps ih =>
    obtain ⟨k, v⟩ := p
    by_cases hk : k = r
    · simp [dinsert, hk, akeys]
    · have hr : r ∈ akeys ps := by
        rcases (by simpa [akeys] using h : r = k ∨ r ∈ List.map Prod.fst ps) with h1 | h1
        · exact absurd h1.symm hk
        · simpa [akeys] using h1
      simp only [dinsert, if_neg hk]
      have hstep : akeys ((k, v) :: dinsert ps r c) = k :: akeys (dinsert ps r c) := rfl
      rw [hstep, ih hr]
      rfl

theorem akeys_append {a b : AList} : akeys (a ++ b) = akeys a ++ akeys b := by
  simp [akeys]

theorem derase_append_notMem {a : AList} {r c : Nat} (h : r ∉ akeys a) :
    derase (a ++ [(r, c)]) r = a := by
  induction a with
  | nil => simp [derase]
  | cons p ps ih =>
    obtain ⟨k, v⟩ := p
    have hk : ¬ k = r := by
      rintro rfl
      exact h (by simp [akeys])
    have hps : r ∉ akeys ps := by
      intro hr
      exact h (by simp [akeys] at hr ⊢; right; exact hr)
    simp only [derase, List.cons_append, List.filter_cons]
    simpa [hk, derase] using ih hps

theorem countConflicts_eq_zero {row col : Nat} {a : AList} :
    countConflicts row col a = 0 ↔ ∀ p ∈ a, p.1 ≠ row → ¬ Attacks p.1 p.2 row col := by
  unfold countConflicts
  rw [List.countP_eq_zero]
  constructor
  · intro h p hp hne hat
    exact h p hp (by simp [hne, attacksB_iff.2 hat])
  · intro h p hp
    by_cases hne : p.1 = row
    · simp [hne]
    · simp only [Bool.and_eq_true, bne_iff_ne, ne_eq, hne, not_false_eq_true, true_and]
      intro hat
      exact h p hp hne (attacksB_iff.1 hat)

theorem countConflicts_pos {row col : Nat} {a : AList} {p : Nat × Nat}
    (hp : p ∈ a) (hne : p.1 ≠ row) (hat : Attacks p.1 p.2 row col) :
    0 < countConflicts row col a := by
  rcases Nat.eq_zero_or_pos (countConflicts row col a) with h | h
  · exact absurd hat (countConflicts_eq_zero.1 h p hp hne)
  · exact h

theorem isConsistent_iff {row col : Nat} {a : AList} :
    isConsistent row col a = true ↔ ∀ p ∈ a, ¬ Attacks p.1 p.2 row col := by
  unfold isConsistent
  rw [List.all_eq_true]
  constructor
  · intro h p hp hat
    have := h p hp
    rcases hat with hc | hd
    · simp [hc] at this
    · simp [hd] at this
  · intro h p hp
    have := h p hp
    simp only [Attacks, not_or] at this
    simp [this.1, this.2]

theorem fsort_eq_sort (s : Finset Nat) : fsort s = s.sort (· ≤ ·) := by
  obtain ⟨m, hm⟩ := s
  induction m using Quotient.inductionOn with
  | h l =>
    apply List.eq_of_perm_of_sorted (r := (· ≤ ·))
    · exact (List.perm_insertionSort _ l).trans (Quotient.exact (Multiset.sort_eq _ _)).symm
    · exact List.sorted_insertionSort _ l
    · exact Multiset.sort_sorted _ _

theorem mem_fsort {s : Finset Nat} {c : Nat} : c ∈ fsort s ↔ c ∈ s := by
  rw [fsort_eq_sort]; exact Finset.mem_sort _

theorem fsort_sorted (s : Finset Nat) : List.Sorted (· ≤ ·) (fsort s) := by
  rw [fsort_eq_sort]; exact Finset.sort_sorted _ s

theorem fsort_nodup (s : Finset Nat) : (fsort s).Nodup := by
  rw [fsort_eq_sort]; exact Finset.sort_nodup _ s

theorem fsort_range (n : Nat) : fsort (Finset.range n) = List.range n := by
  rw [fsort_eq_sort]; exact Finset.sort_range n

theorem fsort_singleton (c : Nat) : fsort {c} = [c] := by
  rw [fsort_eq_sort]
  exact Finset.sort_singleton _ c

theorem fsort_eq_nil {s : Finset Nat} : fsort s = [] ↔ s = ∅ := by
  rw [fsort_eq_sort]
  constructor
  · intro h
    ext c
    simp only [Finset.not_mem_empty, iff_false]
    intro hc
    have := (Finset.mem_sort (α := Nat) (· ≤ ·)).2 hc
    simp [h] at this
  · rintro rfl
    simp [Finset.sort_empty]

/-! ## Claim C2: solve on n = 1, 2, 3 with no partial assignment -/

/-- A fixed oracle; the backtracking path (`n ≤ 100`) never consults it. -/
def osZero : Nat → List Nat → Nat := fun _ _ => 0

/-- C2 counterexample: for `n = 1` with no partial assignment, `solve` does
not report infeasible — it returns the one-queen assignment `{0: 0}`
(1-queens has the trivial solution and the backtracking search finds it). -/
theorem nq_C2_counterexample : solve 1 [] osZero = some [(0, 0)] := by decide

/-- C2 (amended): for `n = 2` and `n = 3` with no partial assignment, `solve`
reports infeasible for every random behaviour; for `n = 1` it instead returns
the trivial one-queen solution. -/
theorem nq_C2_amended : ∀ os, solve 2 [] os = none ∧ solve 3 [] os = none := by
  intro os
  exact ⟨(by decide : backtrackSearch 2 [] = none),
         (by decide : backtrackSearch 3 [] = none)⟩

/-! ## Claim C3: out-of-range columns in the partial assignment -/

/-- `read_input`: the partial assignment parsed from the input file.  The
input is the list of (nonempty, stripped) lines, each already tokenised:
`some c` for a line parsing as the integer `c`, `none` for a line whose
`int(...)` raises `ValueError`.  Only rows whose column lies in `[0, n)`
(`n` = number of lines) enter the partial assignment. -/
def readInput (lines : List (Option Int)) : AList :=
  lines.enum.filterMap (fun p =>
    match p.2 with
    | some c => if 0 ≤ c ∧ c < (lines.length : Int) then some (p.1, c.toNat) else none
    | none => none)

theorem filterMap_enumFrom_set {g : Nat × Option Int → Option (Nat × Nat)} :
    ∀ (l : List (Option Int)) (k r : Nat) (c : Int),
      l[r]? = some (some c) → g (k + r, some c) = none → g (k + r, none) = none →
      (List.filterMap g (l.enumFrom k)) = (List.filterMap g ((l.set r none).enumFrom k))
  | [], _, _, _, h, _, _ => by simp at h
  | o :: l, k, 0, c, h, h1, h2 => by
    simp only [List.getElem?_cons_zero, Option.some.injEq] at h
    subst h
    simp only [Nat.add_zero] at h1 h2
    simp [List.enumFrom, List.set, List.filterMap_cons, h1, h2]
  | o :: l, k, r + 1, c, h, h1, h2 => by
    simp only [List.getElem?_cons_succ] at h
    have := filterMap_enumFrom_set l (k + 1) r c h
      (by rw [show k + 1 + r = k + (r + 1) by omega]; exact h1)
      (by rw [show k + 1 + r = k + (r + 1) by omega]; exact h2)
    simp [List.enumFrom, List.set, List.filterMap_cons, this]

theorem le_fst_of_mem_enumFrom {α : Type} :
    ∀ (l : List α) (k : Nat) (p : Nat × α), p ∈ l.enumFrom k → k ≤ p.1
  | [], _, _, h => by simp [List.enumFrom] at h
  | o :: l, k, p, h => by
    simp only [List.enumFrom, List.mem_cons] at h
    rcases h with h | h
    · simp [h]
    · exact Nat.le_of_succ_le (le_fst_of_mem_enumFrom l (k + 1) p h)

theorem notMem_akeys_filterMap_enumFrom {g : Nat × Option Int → Option (Nat × Nat)}
    (hkey : ∀ p q, g p = some q → q.1 = p.1) :
    ∀ (l : List (Option Int)) (k r : Nat) (c : Int),
      l[r]? = some (some c) → g (k + r, some c) = none →
      (k + r) ∉ akeys (List.filterMap g (l.enumFrom k))
  | [], _, _, _, h, _ => by simp at h
  | o :: l, k, 0, c, h, h1 => by
    simp only [List.getElem?_cons_zero, Option.some.injEq] at h
    subst h
    simp only [Nat.add_zero] at h1 ⊢
    simp only [List.enumFrom, List.filterMap_cons, h1]
    intro hmem
    obtain ⟨q, hq, hqk⟩ : ∃ q ∈ List.filterMap g (l.enumFrom (k + 1)), q.1 = k := by
      simpa [akeys] using hmem
    obtain ⟨p, hp, hgp⟩ := List.mem_filterMap.1 hq
    have hq1 : q.1 = p.1 := hkey _ _ hgp
    have hple : k + 1 ≤ p.1 := le_fst_of_mem_enumFrom l (k + 1) p hp
    omega
  | o :: l, k, r + 1, c, h, h1 => by
    simp only [List.getElem?_cons_succ] at h
    have ih := notMem_akeys_filterMap_enumFrom hkey l (k + 1) r c h
      (by rw [show k + 1 + r = k + (r + 1) by omega]; exact h1)
    simp only [List.enumFrom, List.filterMap_cons]
    intro hmem
    cases hg : g (k, o) with
    | none =>
      rw [hg] at hmem
      rw [show k + 1 + r = k + (r + 1) by omega] at ih
      exact ih hmem
    | some q =>
      rw [hg] at hmem
      have hqk := hkey _ _ hg
      simp only [akeys, List.map_cons, List.mem_cons] at hmem
      rcases hmem with hmem | hmem
      · simp only at hqk
        omega
      · rw [show k + 1 + r = k + (r + 1) by omega] at ih
        exact ih (by simpa [akeys] using hmem)

/-- C3 counterexample: the core solver does *not* treat an out-of-range column
as "unassigned".  For `n = 4` with partial assignment `{0: 10}` (10 outside
`[0, 4)`), `solve` keeps row 0 fixed at column 10 and returns an assignment
containing it, which differs from the behaviour with row 0 absent. -/
theorem nq_C3_counterexample :
    solve 4 [(0, 10)] osZero = some [(0, 10), (1, 0), (2, 3), (3, 1)] ∧
      solve 4 [(0, 10)] osZero ≠ solve 4 [] osZero := by
  constructor
  · decide
  · decide

/-- C3 (amended): the out-of-range filtering lives in `read_input`, not in the
core solver.  For input reaching the solver through `read_input`, a row whose
line holds a column outside `[0, n)` is omitted from the partial assignment,
so `solve` behaves exactly as if that row were absent (and no error is
raised, every function being total); but a partial assignment handed directly
to `NQueensCSP` keeps out-of-range columns (see the counterexample). -/
theorem nq_C3_amended (lines : List (Option Int)) (r : Nat) (c : Int)
    (hr : lines[r]? = some (some c)) (hc : ¬ (0 ≤ c ∧ c < (lines.length : Int))) :
    readInput lines = readInput (lines.set r none) ∧
      r ∉ akeys (readInput lines) ∧
      ∀ n os, solve n (readInput lines) os = solve n (readInput (lines.set r none)) os := by
  have hlen : (lines.set r none).length = lines.length := List.length_set ..
  have hg1 : (fun (p : Nat × Option Int) =>
      match p.2 with
      | some c => if 0 ≤ c ∧ c < (lines.length : Int) then some (p.1, c.toNat) else none
      | none => none) (0 + r, some c) = none := by simp [hc]
  have hg2 : (fun (p : Nat × Option Int) =>
      match p.2 with
      | some c => if 0 ≤ c ∧ c < (lines.length : Int) then some (p.1, c.toNat) else none
      | none => none) ((0 : Nat) + r, (none : Option Int)) = none := by simp
  have hmain : readInput lines = readInput (lines.set r none) := by
    unfold readInput
    rw [hlen]
    exact filterMap_enumFrom_set lines 0 r c hr hg1 hg2
  refine ⟨hmain, ?_, fun n os => by rw [hmain]⟩
  have := notMem_akeys_filterMap_enumFrom
    (g := fun (p : Nat × Option Int) =>
      match p.2 with
      | some c => if 0 ≤ c ∧ c < (lines.length : Int) then some (p.1, c.toNat) else none
      | none => none)
    (fun p q hq => by
      obtain ⟨i, o⟩ := p
      cases o with
      | none => simp at hq
      | some c' =>
        dsimp only at hq
        split at hq
        · cases hq
          rfl
        · cases hq)
    lines 0 r c hr hg1
  simpa [readInput] using this

/-! ## Characterisation of `revise`; termination of AC3 (claim C10) -/

theorem reviseSingle_subset (n i j : Nat) (d : Domains) : (reviseSingle n i j d).1 ⊆ d i := by
  unfold reviseSingle
  dsimp only
  split_ifs
  all_goals
    first
      | exact Finset.Subset.refl _
      | exact Finset.erase_subset _ _
      | exact (Finset.erase_subset _ _).trans (Finset.erase_subset _ _)
      | exact ((Finset.erase_subset _ _).trans (Finset.erase_subset _ _)).trans
          (Finset.erase_subset _ _)

theorem reviseSingle_false (n i j : Nat) (d : Domains)
    (h : (reviseSingle n i j d).2 = false) : (reviseSingle n i j d).1 = d i := by
  unfold reviseSingle at h ⊢
  dsimp only at h ⊢
  split_ifs at h ⊢
  simp_all

theorem reviseSingle_true (n i j : Nat) (d : Domains)
    (h : (reviseSingle n i j d).2 = true) : (reviseSingle n i j d).1 ⊂ d i := by
  unfold reviseSingle at h ⊢
  dsimp only at h ⊢
  split_ifs at h ⊢ with h1 h2 h3 h4 h5 h6 h7
  · -- cj, cj+Δ, cj-Δ all erased
    refine (Finset.ssubset_iff_of_subset (((Finset.erase_subset _ _).trans
      (Finset.erase_subset _ _)).trans (Finset.erase_subset _ _))).2
      ⟨sElem (d j), h1, fun hmem => ?_⟩
    exact absurd (Finset.mem_of_mem_erase (Finset.mem_of_mem_erase hmem))
      (Finset.not_mem_erase _ _)
  · refine (Finset.ssubset_iff_of_subset ((Finset.erase_subset _ _).trans
      (Finset.erase_subset _ _))).2 ⟨sElem (d j), h1, fun hmem => ?_⟩
    exact absurd (Finset.mem_of_mem_erase hmem) (Finset.not_mem_erase _ _)
  · refine (Finset.ssubset_iff_of_subset ((Finset.erase_subset _ _).trans
      (Finset.erase_subset _ _))).2 ⟨sElem (d j), h1, fun hmem => ?_⟩
    exact absurd (Finset.mem_of_mem_erase hmem) (Finset.not_mem_erase _ _)
  · refine (Finset.ssubset_iff_of_subset (Finset.erase_subset _ _)).2
      ⟨sElem (d j), h1, Finset.not_mem_erase _ _⟩
  · -- cj not present; cj+Δ and cj-Δ erased
    refine (Finset.ssubset_iff_of_subset ((Finset.erase_subset _ _).trans
      (Finset.erase_subset _ _))).2 ⟨sElem (d j) + Nat.dist i j, h5.2, fun hmem => ?_⟩
    exact absurd (Finset.mem_of_mem_erase hmem) (Finset.not_mem_erase _ _)
  · refine (Finset.ssubset_iff_of_subset (Finset.erase_subset _ _)).2
      ⟨sElem (d j) + Nat.dist i j, h5.2, Finset.not_mem_erase _ _⟩
  · refine (Finset.ssubset_iff_of_subset (Finset.erase_subset _ _)).2
      ⟨sElem (d j) - Nat.dist i j, h7.2, Finset.not_mem_erase _ _⟩

theorem reviseGenImpl_subset (i j : Nat) (d : Domains) : (reviseGenImpl i j d).1 ⊆ d i := by
  unfold reviseGenImpl
  exact Finset.sdiff_subset

theorem reviseGenImpl_false (i j : Nat) (d : Domains)
    (h : (reviseGenImpl i j d).2 = false) : (reviseGenImpl i j d).1 = d i := by
  unfold reviseGenImpl at h ⊢
  dsimp only at h ⊢
  rw [decide_eq_false_iff_not, not_not] at h
  rw [h, Finset.sdiff_empty]

theorem reviseGenImpl_true (i j : Nat) (d : Domains)
    (h : (reviseGenImpl i j d).2 = true) : (reviseGenImpl i j d).1 ⊂ d i := by
  unfold reviseGenImpl at h ⊢
  dsimp only at h ⊢
  rw [decide_eq_true_iff, ← Finset.nonempty_iff_ne_empty] at h
  obtain ⟨x, hx⟩ := h
  refine (Finset.ssubset_iff_of_subset Finset.sdiff_subset).2
    ⟨x, Finset.mem_of_mem_filter x hx, fun hmem => ?_⟩
  exact (Finset.mem_sdiff.1 hmem).2 hx

theorem revise_fst_other {n i j k : Nat} {d : Domains} (hk : k ≠ i) :
    (revise n i j d).1 k = d k := by
  unfold revise
  split
  · exact Function.update_noteq hk _ _
  · exact Function.update_noteq hk _ _

theorem revise_false_eq {n i j : Nat} {d : Domains} (h : (revise n i j d).2 = false) :
    (revise n i j d).1 = d := by
  unfold revise at h ⊢
  split at h
  case isTrue hco =>
    rw [if_pos hco]
    dsimp only at h ⊢
    rw [reviseSingle_false n i j d h, Function.update_eq_self]
  case isFalse hco =>
    rw [if_neg hco]
    dsimp only at h ⊢
    rw [reviseGenImpl_false i j d h, Function.update_eq_self]

theorem revise_true_ssubset {n i j : Nat} {d : Domains} (h : (revise n i j d).2 = true) :
    (revise n i j d).1 i ⊂ d i := by
  unfold revise at h ⊢
  split at h
  case isTrue hc =>
    rw [if_pos hc]
    dsimp only at h ⊢
    rw [Function.update_same]
    exact reviseSingle_true n i j d h
  case isFalse hc =>
    rw [if_neg hc]
    dsimp only at h ⊢
    rw [Function.update_same]
    exact reviseGenImpl_true i j d h

theorem totalCard_lt {n i : Nat} {d d' : Domains} (hi : i < n)
    (hlt : (d' i).card < (d i).card) (hoth : ∀ k, k ≠ i → d' k = d k) :
    totalCard n d' < totalCard n d := by
  unfold totalCard
  refine Finset.sum_lt_sum (fun k _ => ?_) ⟨i, Finset.mem_range.2 hi, hlt⟩
  by_cases hk : k = i
  · exact hk ▸ le_of_lt hlt
  · rw [hoth k hk]

/-- Each `ac3go` step with fuel above the potential `|queue| + n·(total domain
size)` makes progress: the loop cannot exhaust its fuel. -/
theorem ac3go_ne_none {n : Nat} :
    ∀ (fuel : Nat) (q : List (Nat × Nat)) (d : Domains),
      (∀ p ∈ q, p.1 < n) →
      q.length + n * totalCard n d < fuel →
      ac3go n fuel q d ≠ none := by
  intro fuel
  induction fuel with
  | zero => intro q d _ hΦ; omega
  | succ fuel ih =>
    intro q d hq hΦ
    match q with
    | [] => simp [ac3go]
    | (i, j) :: q' =>
      show ac3go n (fuel + 1) ((i, j) :: q') d ≠ none
      rw [ac3go]
      split
      case isTrue hrev =>
        split
        · simp
        · apply ih
          · intro p hp
            rcases List.mem_append.1 hp with hp | hp
            · exact hq p (List.mem_cons_of_mem _ hp)
            · obtain ⟨k, hk, rfl⟩ := List.mem_map.1 hp
              exact List.mem_range.1 (List.mem_of_mem_filter hk)
          · have hi : i < n := hq (i, j) (List.mem_cons_self _ _)
            have hcard : (((revise n i j d).1) i).card < (d i).card :=
              Finset.card_lt_card (revise_true_ssubset hrev)
            have hoth : ∀ k, k ≠ i → (revise n i j d).1 k = d k :=
              fun k hk => revise_fst_other hk
            have hT : totalCard n (revise n i j d).1 < totalCard n d :=
              totalCard_lt hi hcard hoth
            have hlen : (((List.range n).filter (fun k => k != i && k != j)).map
                (fun k => (k, i))).length ≤ n := by
              rw [List.length_map]
              exact le_trans (List.length_filter_le _ _) (by rw [List.length_range])
            have hmul : n * totalCard n (revise n i j d).1 + n ≤ n * totalCard n d := by
              have : totalCard n (revise n i j d).1 + 1 ≤ totalCard n d := hT
              calc n * totalCard n (revise n i j d).1 + n
                  = n * (totalCard n (revise n i j d).1 + 1) := by ring
                _ ≤ n * totalCard n d := Nat.mul_le_mul_left n this
            rw [List.length_append]
            simp only [List.length_cons] at hΦ
            omega
      case isFalse hrev =>
        apply ih
        · exact fun p hp => hq p (List.mem_cons_of_mem _ hp)
        · simp only [List.length_cons] at hΦ
          omega

/-- C10: AC3 terminates for every board size and every initial domain map —
the work-queue loop never exhausts its (sufficient) fuel; it ends with an
explicit answer: success with the queue drained, or early failure on an
emptied domain. -/
theorem nq_C10_ac3_terminates (n : Nat) (d : Domains) : ac3 n d ≠ none := by
  unfold ac3 ac3Fuel
  apply ac3go_ne_none
  · intro p hp
    obtain ⟨i, hi, hj⟩ := List.mem_flatMap.1 hp
    obtain ⟨k, hk, rfl⟩ := List.mem_map.1 hj
    exact List.mem_range.1 hi
  · omega

/-! ## Claim C8: the repair loop never examines fixed-fixed conflicts -/

theorem mcLoop_some_conflicts {n : Nat} {os : Nat → List Nat → Nat} {fixed : List Nat} :
    ∀ (steps : Nat) (a : AList) (t : Nat) (A : AList),
      mcLoop n os fixed steps a t = some A →
      ∀ r, r < n → r ∉ fixed → countConflicts r ((alookup A r).getD 0) A = 0 := by
  intro steps
  induction steps with
  | zero => intro a t A h; simp [mcLoop] at h
  | succ steps ih =>
    intro a t A h r hr hfx
    rw [mcLoop] at h
    split at h
    case isTrue hcr =>
      obtain rfl : a = A := by simpa using h
      have hnil := List.isEmpty_iff.1 hcr
      have hall := List.filter_eq_nil_iff.1 hnil r (List.mem_range.2 hr)
      simp only [Bool.and_eq_true, Bool.not_eq_true', decide_eq_true_eq, not_and] at hall
      have hcontains : fixed.contains r = false := by simpa using hfx
      have := hall hcontains
      omega
    case isFalse =>
      exact ih _ _ _ h r hr hfx

/-- The oracle for the concrete C8 run (first random call picks index 1,
all later calls index 0). -/
def osC8 : Nat → List Nat → Nat := fun t _ => if t = 0 then 1 else 0

/-- C8: `min_conflicts` returns an assignment only when every row outside the
fixed partial assignment has zero conflicts against the whole assignment;
conflicts between two fixed rows are never examined by the repair loop, and
concretely (`n = 6`, fixed rows `{0: 0, 1: 1}` attacking each other
diagonally) a possible run returns an assignment in which the two fixed
queens still attack each other. -/
theorem nq_C8_min_conflicts_fixed_blindspot :
    (∀ (n : Nat) (P : AList) (os : Nat → List Nat → Nat) (steps : Nat) (A : AList),
        minConflicts n P os steps = some A →
        ∀ r, r < n → r ∉ akeys P → countConflicts r ((alookup A r).getD 0) A = 0) ∧
      (minConflicts 6 [(0, 0), (1, 1)] osC8 600
          = some [(0, 0), (1, 1), (2, 4), (3, 2), (4, 5), (5, 3)] ∧
        alookup [(0, 0), (1, 1), (2, 4), (3, 2), (4, 5), (5, 3)] 0 = some 0 ∧
        alookup [(0, 0), (1, 1), (2, 4), (3, 2), (4, 5), (5, 3)] 1 = some 1 ∧
        Attacks 0 0 1 1) := by
  refine ⟨?_, by decide, by decide, by decide, by decide⟩
  intro n P os steps A h r hr hfx
  unfold minConflicts at h
  exact mcLoop_some_conflicts _ _ _ _ h r hr hfx

/-- Witness for C8's universal part, at the concrete run: the free row 2 of
the returned assignment has zero conflicts. -/
theorem nq_C8_witness :
    countConflicts 2 ((alookup [(0, 0), (1, 1), (2, 4), (3, 2), (4, 5), (5, 3)] 2).getD 0)
      [(0, 0), (1, 1), (2, 4), (3, 2), (4, 5), (5, 3)] = 0 :=
  nq_C8_min_conflicts_fixed_blindspot.1 6 [(0, 0), (1, 1)] osC8 600
    [(0, 0), (1, 1), (2, 4), (3, 2), (4, 5), (5, 3)]
    nq_C8_min_conflicts_fixed_blindspot.2.1 2 (by omega) (by decide)

/-! ## Claim C9: the singleton shortcut of `revise` equals the general branch -/

theorem reviseSingle_eq_genImpl {n i j c : Nat} {d : Domains}
    (hij : i ≠ j) (hdj : d j = {c}) (hdi : d i ⊆ Finset.range n) :
    reviseSingle n i j d = reviseGenImpl i j d := by
  have hc : sElem (d j) = c := by rw [hdj, sElem, fsort_singleton]; rfl
  have hD : 0 < Nat.dist i j := by
    rcases Nat.eq_zero_or_pos (Nat.dist i j) with h | h
    · exact absurd (Nat.eq_of_dist_eq_zero h) hij
    · exact h
  have hlt : ∀ x ∈ d i, x < n := fun x hx => Finset.mem_range.1 (hdi hx)
  have hpred : ∀ x, conflictAll i j x (d j) = true ↔ (x = c ∨ Nat.dist i j = Nat.dist x c) := by
    intro x
    rw [hdj]
    simp [conflictAll, fsort_singleton]
  have hdec : ∀ x, (Nat.dist i j = Nat.dist x c) ↔
      (x = c + Nat.dist i j ∨ (Nat.dist i j ≤ c ∧ x = c - Nat.dist i j)) := by
    intro x
    simp only [Nat.dist]
    omega
  unfold reviseSingle reviseGenImpl
  rw [hc]
  dsimp only
  set p1 : Finset Nat × Bool := if c ∈ d i then ((d i).erase c, true) else (d i, false)
    with hp1def
  set p2 : Finset Nat × Bool := if c + Nat.dist i j < n ∧ c + Nat.dist i j ∈ p1.1
      then (p1.1.erase (c + Nat.dist i j), true) else p1 with hp2def
  set p3 : Finset Nat × Bool := if Nat.dist i j ≤ c ∧ c - Nat.dist i j ∈ p2.1
      then (p2.1.erase (c - Nat.dist i j), true) else p2 with hp3def
  have hp1sub : p1.1 ⊆ d i := by
    rw [hp1def]; split_ifs
    · exact Finset.erase_subset _ _
    · exact Finset.Subset.refl _
  have hp2sub : p2.1 ⊆ p1.1 := by
    rw [hp2def]; split_ifs
    · exact Finset.erase_subset _ _
    · exact Finset.Subset.refl _
  have hp3sub : p3.1 ⊆ p2.1 := by
    rw [hp3def]; split_ifs
    · exact Finset.erase_subset _ _
    · exact Finset.Subset.refl _
  -- forward membership: a non-conflicting value of d i survives every stage
  have hm1 : ∀ x ∈ d i, x ≠ c → x ∈ p1.1 := by
    intro x hx hxc
    rw [hp1def]; split_ifs
    · exact Finset.mem_erase.2 ⟨hxc, hx⟩
    · exact hx
  have hm2 : ∀ x ∈ d i, x ≠ c → x ≠ c + Nat.dist i j → x ∈ p2.1 := by
    intro x hx hxc hxp
    rw [hp2def]; split_ifs
    · exact Finset.mem_erase.2 ⟨hxp, hm1 x hx hxc⟩
    · exact hm1 x hx hxc
  have hm3 : ∀ x ∈ d i, x ≠ c → x ≠ c + Nat.dist i j → x ≠ c - Nat.dist i j → x ∈ p3.1 := by
    intro x hx hxc hxp hxm
    rw [hp3def]; split_ifs
    · exact Finset.mem_erase.2 ⟨hxm, hm2 x hx hxc hxp⟩
    · exact hm2 x hx hxc hxp
  -- the removal set of the general branch
  have hRmem : ∀ x, x ∈ (d i).filter (fun ci => conflictAll i j ci (d j)) ↔
      (x ∈ d i ∧ (x = c ∨ x = c + Nat.dist i j ∨
        (Nat.dist i j ≤ c ∧ x = c - Nat.dist i j))) := by
    intro x
    rw [Finset.mem_filter]
    constructor
    · rintro ⟨hx, hp⟩
      have := (hpred x).1 hp
      rcases this with h | h
      · exact ⟨hx, Or.inl h⟩
      · rcases (hdec x).1 h with h | h
        · exact ⟨hx, Or.inr (Or.inl h)⟩
        · exact ⟨hx, Or.inr (Or.inr h)⟩
    · rintro ⟨hx, hp⟩
      refine ⟨hx, (hpred x).2 ?_⟩
      rcases hp with h | h | h
      · exact Or.inl h
      · exact Or.inr ((hdec x).2 (Or.inl h))
      · exact Or.inr ((hdec x).2 (Or.inr h))
  -- first components agree
  have hfst : p3.1 = (d i) \ ((d i).filter (fun ci => conflictAll i j ci (d j))) := by
    apply Finset.Subset.antisymm
    · intro x hx3
      have hxd : x ∈ d i := hp1sub (hp2sub (hp3sub hx3))
      rw [Finset.mem_sdiff]
      refine ⟨hxd, fun hR => ?_⟩
      rcases (hRmem x).1 hR with ⟨-, hcase⟩
      rcases hcase with hxc | hxp | ⟨hle, hxm⟩
      · -- x = c was erased at stage 1
        have g1 : c ∈ d i := hxc ▸ hxd
        have hmem : x ∈ p1.1 := hp2sub (hp3sub hx3)
        rw [hp1def, if_pos g1, hxc] at hmem
        exact absurd hmem (Finset.not_mem_erase _ _)
      · -- x = c + Δ was erased at stage 2
        have hxn : c + Nat.dist i j < n := by rw [← hxp]; exact hlt x hxd
        have hxp1 : c + Nat.dist i j ∈ p1.1 := by
          rw [← hxp]; exact hm1 x hxd (by omega)
        have hmem : x ∈ p2.1 := hp3sub hx3
        rw [hp2def, if_pos ⟨hxn, hxp1⟩, hxp] at hmem
        exact absurd hmem (Finset.not_mem_erase _ _)
      · -- x = c - Δ was erased at stage 3
        have hxp2 : c - Nat.dist i j ∈ p2.1 := by
          rw [← hxm]; exact hm2 x hxd (by omega) (by omega)
        rw [hp3def, if_pos ⟨hle, hxp2⟩, hxm] at hx3
        exact absurd hx3 (Finset.not_mem_erase _ _)
    · intro x hx
      rw [Finset.mem_sdiff] at hx
      obtain ⟨hxd, hxR⟩ := hx
      have hnc : ¬ (x = c ∨ x = c + Nat.dist i j ∨
          (Nat.dist i j ≤ c ∧ x = c - Nat.dist i j)) :=
        fun h => hxR ((hRmem x).2 ⟨hxd, h⟩)
      push_neg at hnc
      by_cases hxm : x = c - Nat.dist i j
      · -- then Δ > c, so the third erase cannot have fired on x... handle via hm2 + stage-3 guard
        rw [hp3def]
        have hgle : ¬ (Nat.dist i j ≤ c) := fun hle => (hnc.2.2 hle) hxm
        rw [if_neg (fun hg => hgle hg.1)]
        exact hm2 x hxd hnc.1 hnc.2.1
      · exact hm3 x hxd hnc.1 hnc.2.1 hxm
  -- flags agree
  have hsnd : p3.2 = decide ((d i).filter (fun ci => conflictAll i j ci (d j)) ≠ ∅) := by
    by_cases hne : (d i).filter (fun ci => conflictAll i j ci (d j)) = ∅
    · rw [hne]
      rw [decide_eq_false (by simp : ¬ ((∅ : Finset Nat) ≠ ∅))]
      -- no guard can have fired
      have hnomem : ∀ x ∈ d i, ¬ (x = c ∨ x = c + Nat.dist i j ∨
          (Nat.dist i j ≤ c ∧ x = c - Nat.dist i j)) := by
        intro x hx hcase
        have : x ∈ (d i).filter (fun ci => conflictAll i j ci (d j)) :=
          (hRmem x).2 ⟨hx, hcase⟩
        rw [hne] at this
        exact absurd this (Finset.not_mem_empty x)
      have g1 : c ∉ d i := fun h => hnomem c h (Or.inl rfl)
      have hp1 : p1 = (d i, false) := by rw [hp1def, if_neg g1]
      have g2 : ¬ (c + Nat.dist i j < n ∧ c + Nat.dist i j ∈ p1.1) := by
        rintro ⟨-, hmem⟩
        exact hnomem _ (hp1sub hmem) (Or.inr (Or.inl rfl))
      have hp2 : p2 = p1 := by rw [hp2def, if_neg g2]
      have g3 : ¬ (Nat.dist i j ≤ c ∧ c - Nat.dist i j ∈ p2.1) := by
        rintro ⟨hle, hmem⟩
        exact hnomem _ (hp1sub (hp2sub hmem)) (Or.inr (Or.inr ⟨hle, rfl⟩))
      rw [hp3def, if_neg g3, hp2, hp1]
    · rw [decide_eq_true (by exact hne)]
      -- some value is removed: the flag must be true
      obtain ⟨x, hx⟩ := Finset.nonempty_iff_ne_empty.2 hne
      rcases (hRmem x).1 hx with ⟨hxd, hxc | hxp | ⟨hle, hxm⟩⟩
      · -- c ∈ d i: stage 1 fired, flag propagates
        have hp1 : p1.2 = true := by rw [hp1def, if_pos (hxc ▸ hxd)]
        have hp2' : p2.2 = true := by
          rw [hp2def]
          split_ifs
          · rfl
          · exact hp1
        rw [hp3def]
        split_ifs
        · rfl
        · exact hp2'
      · have g2 : c + Nat.dist i j < n ∧ c + Nat.dist i j ∈ p1.1 := by
          constructor
          · rw [← hxp]; exact hlt x hxd
          · rw [← hxp]; exact hm1 x hxd (by omega)
        have hp2 : p2.2 = true := by rw [hp2def, if_pos g2]
        rw [hp3def]
        split_ifs
        · rfl
        · exact hp2
      · have g3 : Nat.dist i j ≤ c ∧ c - Nat.dist i j ∈ p2.1 := by
          refine ⟨hle, ?_⟩
          rw [← hxm]; exact hm2 x hxd (by omega) (by omega)
        rw [hp3def, if_pos g3]
  calc p3 = (p3.1, p3.2) := rfl
    _ = _ := by rw [hfst, hsnd]

/-- C9: for `i ≠ j` with row `j`'s domain a singleton and row `i`'s domain
within the board, the singleton-shortcut branch of `revise` produces exactly
the domain map and `revised` flag of the general branch: the shortcut is a
pure optimisation. -/
theorem nq_C9_singleton_shortcut (n i j c : Nat) (d : Domains)
    (hij : i ≠ j) (hdj : d j = {c}) (hdi : d i ⊆ Finset.range n) :
    revise n i j d = reviseGeneral i j d := by
  have h1 : (d j).card = 1 := by rw [hdj]; exact Finset.card_singleton c
  unfold revise reviseGeneral
  rw [if_pos h1, reviseSingle_eq_genImpl hij hdj hdi]

/-- Witness for C9 at a concrete instance. -/
theorem nq_C9_witness :
    revise 4 0 1 (fun r => if r = 1 then {2} else Finset.range 4)
      = reviseGeneral 0 1 (fun r => if r = 1 then {2} else Finset.range 4) :=
  nq_C9_singleton_shortcut 4 0 1 2 _ (by omega) (by decide)
    (by intro x hx; simpa using hx)

/-! ## Claim C4: exact restoration of the domain store on backtrack -/

theorem restoreDoms_append (d : Domains) (pr1 pr2 : List (Nat × List Nat)) :
    restoreDoms d (pr1 ++ pr2) = restoreDoms (restoreDoms d pr1) pr2 := by
  unfold restoreDoms
  rw [List.foldl_append]

theorem restoreDoms_cons (d : Domains) (rho : Nat) (X : List Nat)
    (pr : List (Nat × List Nat)) :
    restoreDoms d ((rho, X) :: pr)
      = restoreDoms (Function.update d rho (d rho ∪ X.toFinset)) pr :=
  rfl

theorem restoreDoms_notMem {r : Nat} :
    ∀ (pr : List (Nat × List Nat)) (d : Domains), r ∉ pr.map Prod.fst →
      restoreDoms d pr r = d r
  | [], d, _ => rfl
  | (rho, X) :: pr, d, h => by
    have hρ : rho ≠ r := fun he => h (by simp [he])
    have hm : r ∉ pr.map Prod.fst := fun hmm => h (by simp [hmm])
    rw [restoreDoms_cons, restoreDoms_notMem pr _ hm]
    exact Function.update_noteq (Ne.symm hρ) _ _

theorem restoreDoms_update {r : Nat} {S : Finset Nat} :
    ∀ (pr : List (Nat × List Nat)) (d : Domains), r ∉ pr.map Prod.fst →
      restoreDoms (Function.update d r S) pr = Function.update (restoreDoms d pr) r S
  | [], d, _ => rfl
  | (rho, X) :: pr, d, h => by
    have hρ : rho ≠ r := fun he => h (by simp [he])
    have hm : r ∉ pr.map Prod.fst := fun hmm => h (by simp [hmm])
    rw [restoreDoms_cons, restoreDoms_cons]
    have hV : Function.update d r S rho = d rho := Function.update_noteq hρ _ _
    rw [hV, Function.update_comm (Ne.symm hρ : r ≠ rho)]
    exact restoreDoms_update pr _ hm

theorem pruneRow_union (row col r : Nat) (s : Finset Nat) :
    s.filter (fun oc => !(attacksB row col r oc)) ∪ (pruneRow row col r s).toFinset = s := by
  ext x
  simp only [Finset.mem_union, Finset.mem_filter, List.mem_toFinset, pruneRow,
    List.mem_filter, mem_fsort]
  constructor
  · rintro (⟨h, -⟩ | ⟨h, -⟩) <;> exact h
  · intro hx
    by_cases ha : attacksB row col r x
    · exact Or.inr ⟨hx, ha⟩
    · exact Or.inl ⟨hx, by simp [ha]⟩

theorem pruneRow_nil (row col r : Nat) (s : Finset Nat)
    (h : pruneRow row col r s = []) :
    s.filter (fun oc => !(attacksB row col r oc)) = s := by
  ext x
  simp only [Finset.mem_filter]
  refine ⟨fun hx => hx.1, fun hx => ⟨hx, ?_⟩⟩
  by_contra hb
  have : x ∈ pruneRow row col r s := by
    simp only [pruneRow, List.mem_filter, mem_fsort]
    refine ⟨hx, ?_⟩
    revert hb
    cases attacksB row col r x <;> simp
  rw [h] at this
  exact absurd this (List.not_mem_nil x)

/-- The forward-checking loop restores exactly: applying the pruning record it
produced to the domain map it produced gives back the original domain map —
whether the loop succeeded or failed early. -/
theorem fcGo_restore {row col : Nat} {a : AList} :
    ∀ (rs : List Nat) (d : Domains) (pr : List (Nat × List Nat)),
      rs.Nodup → (∀ p ∈ pr, p.1 ∉ rs) →
      restoreDoms (fcGo row col a rs d pr).2.1 (fcGo row col a rs d pr).2.2
        = restoreDoms d pr := by
  intro rs
  induction rs with
  | nil => intro d pr _ _; rfl
  | cons r rs ih =>
    intro d pr hnd hpr
    have hndtail : rs.Nodup := hnd.of_cons
    have hrnotin : r ∉ rs := by
      rw [List.nodup_cons] at hnd
      exact hnd.1
    have htail : ∀ p ∈ pr, p.1 ∉ rs :=
      fun p hp hm => hpr p hp (List.mem_cons_of_mem _ hm)
    rw [fcGo]
    split
    case isTrue hcond =>
      have key : restoreDoms
          (Function.update d r ((d r).filter (fun oc => !(attacksB row col r oc))))
          (if (pruneRow row col r (d r)).isEmpty then pr
            else pr ++ [(r, pruneRow row col r (d r))])
          = restoreDoms d pr := by
        by_cases hpv : (pruneRow row col r (d r)).isEmpty
        · rw [if_pos hpv, pruneRow_nil row col r (d r) (List.isEmpty_iff.1 hpv),
            Function.update_eq_self]
        · rw [if_neg hpv]
          have hrpr : r ∉ pr.map Prod.fst := by
            intro hm
            obtain ⟨p, hp, hpeq⟩ := List.mem_map.1 hm
            exact hpr p hp (hpeq ▸ List.mem_cons_self _ _)
          rw [restoreDoms_append, restoreDoms_update pr _ hrpr, restoreDoms_cons]
          rw [Function.update_same, Function.update_idem, pruneRow_union row col r (d r)]
          show restoreDoms (Function.update (restoreDoms d pr) r (d r)) [] = restoreDoms d pr
          rw [show restoreDoms (Function.update (restoreDoms d pr) r (d r)) [] =
            Function.update (restoreDoms d pr) r (d r) from rfl]
          rw [← restoreDoms_notMem pr d hrpr]
          exact Function.update_eq_self ..
      have htail' : ∀ p ∈ (if (pruneRow row col r (d r)).isEmpty then pr
          else pr ++ [(r, pruneRow row col r (d r))]), p.1 ∉ rs := by
        split
        · exact htail
        · intro p hp
          rcases List.mem_append.1 hp with hp | hp
          · exact htail p hp
          · simp only [List.mem_singleton] at hp
            subst hp
            exact hrnotin
      dsimp only
      split
      · exact key
      · rw [ih _ _ hndtail htail', key]
    case isFalse hcond =>
      exact ih d pr hndtail htail

theorem foldl_min_mem (f : Nat → Nat) :
    ∀ (ys : List Nat) (acc : Nat) (S : List Nat), acc ∈ S → (∀ z ∈ ys, z ∈ S) →
      ys.foldl (fun best z => if f z < f best then z else best) acc ∈ S
  | [], _, _, ha, _ => ha
  | y :: ys, acc, S, ha, hy => by
    rw [List.foldl_cons]
    apply foldl_min_mem f ys _ S
    · split_ifs
      · exact hy y (List.mem_cons_self _ _)
      · exact ha
    · exact fun z hz => hy z (List.mem_cons_of_mem _ hz)

theorem minByFirst_mem (f : Nat → Nat) (l : List Nat) (h : l ≠ []) : minByFirst f l ∈ l :=
  match l, h with
  | x :: xs, _ =>
    foldl_min_mem f xs x (x :: xs) (List.mem_cons_self _ _)
      (fun _ hz => List.mem_cons_of_mem _ hz)

theorem unassigned_ne_nil {n : Nat} {a : AList} (hnd : (akeys a).Nodup)
    (hlt : ∀ k ∈ akeys a, k < n) (hlen : a.length ≠ n) :
    (List.range n).filter (fun r => (alookup a r).isNone) ≠ [] := by
  intro hnil
  have hall : ∀ k, k < n → k ∈ akeys a := by
    intro k hk
    have hfk := List.filter_eq_nil_iff.1 hnil k (List.mem_range.2 hk)
    rcases hloo : alookup a k with _ | c
    · rw [hloo] at hfk
      simp at hfk
    · exact alookup_isSome.1 (by rw [hloo]; rfl)
  have h1 : (akeys a).toFinset ⊆ Finset.range n :=
    fun k hk => Finset.mem_range.2 (hlt k (List.mem_toFinset.1 hk))
  have h2 : Finset.range n ⊆ (akeys a).toFinset :=
    fun k hk => List.mem_toFinset.2 (hall k (Finset.mem_range.1 hk))
  have heq : (akeys a).toFinset = Finset.range n := Finset.Subset.antisymm h1 h2
  have hcard : (akeys a).toFinset.card = n := by rw [heq, Finset.card_range]
  rw [List.toFinset_card_of_nodup hnd] at hcard
  apply hlen
  rw [← hcard]
  exact (List.length_map a Prod.fst).symm

theorem selectUnassigned_spec {n : Nat} {a : AList} {d : Domains}
    (hnd : (akeys a).Nodup) (hlt : ∀ k ∈ akeys a, k < n) (hlen : a.length ≠ n) :
    selectUnassigned n a d < n ∧ alookup a (selectUnassigned n a d) = none := by
  have hne := unassigned_ne_nil hnd hlt hlen
  have hmem := minByFirst_mem (fun r => (d r).card) _ hne
  rw [List.mem_filter] at hmem
  obtain ⟨h1, h2⟩ := hmem
  exact ⟨List.mem_range.1 h1, Option.isNone_iff_eq_none.1 h2⟩

/-- Failing candidate loops leave both the assignment and the domain map
exactly as they were when the frame was entered. -/
theorem tryValues_none {n row : Nat}
    {bt : AList → Domains → Option AList × AList × Domains} {a : AList}
    (hfree : alookup a row = none) :
    ∀ (cols : List Nat) (d : Domains),
      (∀ col d', (bt (dinsert a row col) d').1 = none →
        (bt (dinsert a row col) d').2.1 = dinsert a row col ∧
        (bt (dinsert a row col) d').2.2 = d') →
      (tryValues n row bt a d cols).1 = none →
      (tryValues n row bt a d cols).2.1 = a ∧ (tryValues n row bt a d cols).2.2 = d := by
  intro cols
  induction cols with
  | nil => intro d _ _; exact ⟨rfl, rfl⟩
  | cons col cols ih =>
    intro d hbt hnone
    have hda : derase (dinsert a row col) row = a := by
      rw [dinsert_eq_append hfree]
      exact derase_append_notMem (alookup_eq_none.1 hfree)
    have hdd : restoreDoms (forwardCheck n row col (dinsert a row col) d).2.1
        (forwardCheck n row col (dinsert a row col) d).2.2 = d := by
      unfold forwardCheck
      exact fcGo_restore (List.range n) d [] (List.nodup_range n) (by simp)
    rw [tryValues] at hnone ⊢
    by_cases hcons : isConsistent row col a
    case neg =>
      rw [if_neg hcons] at hnone ⊢
      exact ih d hbt hnone
    case pos =>
      rw [if_pos hcons] at hnone ⊢
      dsimp only at hnone ⊢
      by_cases hfc : (forwardCheck n row col (dinsert a row col) d).1
      · rw [if_pos hfc] at hnone ⊢
        cases hres : (bt (dinsert a row col)
            (forwardCheck n row col (dinsert a row col) d).2.1).1 with
        | none =>
          rw [hres] at hnone
          dsimp only at hnone
          obtain ⟨hba, hbd⟩ := hbt col _ hres
          rw [hba, hbd, hda, hdd] at hnone
          rw [hba, hbd, hda, hdd]
          exact ih d hbt hnone
        | some sol =>
          rw [hres] at hnone
          dsimp only at hnone
          exact absurd hnone (by simp)
      · rw [if_neg hfc] at hnone ⊢
        dsimp only at hnone ⊢
        rw [hda, hdd] at hnone ⊢
        exact ih d hbt hnone

theorem dinsert_keys_nodup {row col : Nat} {a : AList} (hnd : (akeys a).Nodup)
    (hfree : alookup a row = none) :
    (akeys (dinsert a row col)).Nodup := by
  rw [dinsert_eq_append hfree, akeys_append]
  simp only [akeys, List.map_cons, List.map_nil]
  rw [List.nodup_append]
  exact ⟨hnd, List.nodup_singleton row, by
    intro k hk hmem
    simp only [List.mem_singleton] at hmem
    subst hmem
    exact (alookup_eq_none.1 hfree) hk⟩

theorem dinsert_keys_lt {n row col : Nat} {a : AList} (hlt : ∀ k ∈ akeys a, k < n)
    (hrow : row < n) (hfree : alookup a row = none) :
    ∀ k ∈ akeys (dinsert a row col), k < n := by
  intro k hk
  rw [dinsert_eq_append hfree, akeys_append] at hk
  rcases List.mem_append.1 hk with hk | hk
  · exact hlt k hk
  · simp only [akeys, List.map_cons, List.map_nil, List.mem_singleton] at hk
    subst hk
    exact hrow

/-- A failing `backtrack` call restores both the assignment and the domain
map to their entry state. -/
theorem backtrackAux_none {n : Nat} :
    ∀ (fuel : Nat) (a : AList) (d : Domains),
      (akeys a).Nodup → (∀ k ∈ akeys a, k < n) →
      (backtrackAux n fuel a d).1 = none →
      (backtrackAux n fuel a d).2.1 = a ∧ (backtrackAux n fuel a d).2.2 = d := by
  intro fuel
  induction fuel with
  | zero => intro a d _ _ _; exact ⟨rfl, rfl⟩
  | succ fuel ih =>
    intro a d hnd hlt hnone
    rw [backtrackAux] at hnone ⊢
    by_cases hlen : a.length = n
    · rw [if_pos hlen] at hnone
      simp at hnone
    · rw [if_neg hlen] at hnone ⊢
      obtain ⟨hrowlt, hrowfree⟩ := selectUnassigned_spec (d := d) hnd hlt hlen
      refine tryValues_none hrowfree _ _ (fun col d' hn => ?_) hnone
      exact ih _ _ (dinsert_keys_nodup hnd hrowfree)
        (dinsert_keys_lt hlt hrowlt hrowfree) hn

theorem tryValues_cons_of_fail {n row col : Nat}
    {bt : AList → Domains → Option AList × AList × Domains} {a : AList} {d : Domains}
    (hfree : alookup a row = none)
    (hbt : ∀ d', (bt (dinsert a row col) d').1 = none →
        (bt (dinsert a row col) d').2.1 = dinsert a row col ∧
        (bt (dinsert a row col) d').2.2 = d')
    (hfail : (tryValues n row bt a d [col]).1 = none) :
    ∀ cols, tryValues n row bt a d (col :: cols) = tryValues n row bt a d cols := by
  intro cols
  have hda : derase (dinsert a row col) row = a := by
    rw [dinsert_eq_append hfree]
    exact derase_append_notMem (alookup_eq_none.1 hfree)
  have hdd : restoreDoms (forwardCheck n row col (dinsert a row col) d).2.1
      (forwardCheck n row col (dinsert a row col) d).2.2 = d := by
    unfold forwardCheck
    exact fcGo_restore (List.range n) d [] (List.nodup_range n) (by simp)
  rw [tryValues] at hfail ⊢
  by_cases hcons : isConsistent row col a
  case neg =>
    rw [if_neg hcons]
  case pos =>
    rw [if_pos hcons] at hfail ⊢
    dsimp only at hfail ⊢
    by_cases hfc : (forwardCheck n row col (dinsert a row col) d).1
    · rw [if_pos hfc] at hfail ⊢
      cases hres : (bt (dinsert a row col)
          (forwardCheck n row col (dinsert a row col) d).2.1).1 with
      | none =>
        obtain ⟨hba, hbd⟩ := hbt _ hres
        rw [hba, hbd, hda, hdd]
      | some sol =>
        rw [hres] at hfail
        dsimp only at hfail
        exact absurd hfail (by simp)
    · rw [if_neg hfc] at hfail ⊢
      dsimp only at hfail ⊢
      rw [hda, hdd]

/-- C4: in backtracking search, for every search node (assignment with
distinct in-range row keys, domain map, MRV-chosen or any uncommitted row)
and every candidate value whose branch fails — forward-check failure or
recursive-call failure — after the frame restores its pruned values and
uncommits the row, the domain map is set-for-set identical to its state
immediately before the candidate was attempted (and the assignment is
identical too), so the remaining candidates run from exactly the original
state. -/
theorem nq_C4_restoration (n fuel row col : Nat) (cols : List Nat) (a : AList)
    (d : Domains) (hnd : (akeys a).Nodup) (hlt : ∀ k ∈ akeys a, k < n)
    (hrow : row < n) (hfree : alookup a row = none)
    (hfail : (tryValues n row (backtrackAux n fuel) a d [col]).1 = none) :
    (tryValues n row (backtrackAux n fuel) a d [col]).2.2 = d ∧
      (tryValues n row (backtrackAux n fuel) a d [col]).2.1 = a ∧
      tryValues n row (backtrackAux n fuel) a d (col :: cols)
        = tryValues n row (backtrackAux n fuel) a d cols := by
  have hbt : ∀ col' d', ((backtrackAux n fuel) (dinsert a row col') d').1 = none →
      ((backtrackAux n fuel) (dinsert a row col') d').2.1 = dinsert a row col' ∧
      ((backtrackAux n fuel) (dinsert a row col') d').2.2 = d' :=
    fun col' d' hn => backtrackAux_none fuel _ d' (dinsert_keys_nodup hnd hfree)
      (dinsert_keys_lt hlt hrow hfree) hn
  obtain ⟨h1, h2⟩ := tryValues_none hfree [col] d (fun c d' => hbt c d') hfail
  exact ⟨h2, h1, tryValues_cons_of_fail hfree (hbt col) hfail cols⟩

/-- Witness for C4 at a concrete failing branch: `n = 3`, empty assignment,
row 0, candidate column 0 (3-queens is infeasible, so the branch fails). -/
theorem nq_C4_witness :
    (tryValues 3 0 (backtrackAux 3 4) [] (initDomains 3 []) [0]).2.2 = initDomains 3 [] ∧
      (tryValues 3 0 (backtrackAux 3 4) [] (initDomains 3 []) [0]).2.1 = [] ∧
      tryValues 3 0 (backtrackAux 3 4) [] (initDomains 3 []) ([0] ++ [1, 2])
        = tryValues 3 0 (backtrackAux 3 4) [] (initDomains 3 []) [1, 2] :=
  nq_C4_restoration 3 4 0 0 [1, 2] [] (initDomains 3 []) (by simp [akeys])
    (by simp [akeys]) (by omega) rfl (by decide)

/-! ## Claim C7: rows fixed by the partial assignment are never reassigned -/

theorem rchoice_mem {os : Nat → List Nat → Nat} {t : Nat} {l : List Nat} (h : l ≠ []) :
    rchoice os t l ∈ l := by
  unfold rchoice
  have hlen : 0 < l.length := List.length_pos.2 h
  have hmod : os t l % l.length < l.length := Nat.mod_lt _ hlen
  rw [List.getD_eq_getElem l 0 hmod]
  exact List.getElem_mem ..

theorem tryValues_extends {n row : Nat}
    {bt : AList → Domains → Option AList × AList × Domains} {a : AList}
    (hfree : alookup a row = none)
    (hbt : ∀ col d' res, (bt (dinsert a row col) d').1 = some res →
        ∀ r c, alookup (dinsert a row col) r = some c → alookup res r = some c)
    (hbtnone : ∀ col d', (bt (dinsert a row col) d').1 = none →
        (bt (dinsert a row col) d').2.1 = dinsert a row col ∧
        (bt (dinsert a row col) d').2.2 = d') :
    ∀ (cols : List Nat) (d : Domains) (res : AList),
      (tryValues n row bt a d cols).1 = some res →
      ∀ r c, alookup a r = some c → alookup res r = some c := by
  intro cols
  induction cols with
  | nil => intro d res h; simp [tryValues] at h
  | cons col cols ih =>
    intro d res hsome r c hlook
    have hda : derase (dinsert a row col) row = a := by
      rw [dinsert_eq_append hfree]
      exact derase_append_notMem (alookup_eq_none.1 hfree)
    have hdd : restoreDoms (forwardCheck n row col (dinsert a row col) d).2.1
        (forwardCheck n row col (dinsert a row col) d).2.2 = d := by
      unfold forwardCheck
      exact fcGo_restore (List.range n) d [] (List.nodup_range n) (by simp)
    have hlift : alookup (dinsert a row col) r = some c := by
      have hr : r ≠ row := fun he => by rw [he, hfree] at hlook; exact Option.noConfusion hlook
      rw [alookup_dinsert_ne hr]
      exact hlook
    rw [tryValues] at hsome
    by_cases hcons : isConsistent row col a
    case neg =>
      rw [if_neg hcons] at hsome
      exact ih d res hsome r c hlook
    case pos =>
      rw [if_pos hcons] at hsome
      dsimp only at hsome
      by_cases hfc : (forwardCheck n row col (dinsert a row col) d).1
      · rw [if_pos hfc] at hsome
        cases hres : (bt (dinsert a row col)
            (forwardCheck n row col (dinsert a row col) d).2.1).1 with
        | none =>
          rw [hres] at hsome
          dsimp only at hsome
          obtain ⟨hba, hbd⟩ := hbtnone col _ hres
          rw [hba, hbd, hda, hdd] at hsome
          exact ih d res hsome r c hlook
        | some sol =>
          rw [hres] at hsome
          dsimp only at hsome
          obtain rfl : sol = res := by simpa using hsome
          exact hbt col _ sol hres r c hlift
      · rw [if_neg hfc] at hsome
        dsimp only at hsome
        rw [hda, hdd] at hsome
        exact ih d res hsome r c hlook

theorem backtrackAux_extends {n : Nat} :
    ∀ (fuel : Nat) (a : AList) (d : Domains) (res : AList),
      (akeys a).Nodup → (∀ k ∈ akeys a, k < n) →
      (backtrackAux n fuel a d).1 = some res →
      ∀ r c, alookup a r = some c → alookup res r = some c := by
  intro fuel
  induction fuel with
  | zero => intro a d res _ _ h; simp [backtrackAux] at h
  | succ fuel ih =>
    intro a d res hnd hlt hsome
    rw [backtrackAux] at hsome
    by_cases hlen : a.length = n
    · rw [if_pos hlen] at hsome
      obtain rfl : a = res := by simpa using hsome
      exact fun _ _ h => h
    · rw [if_neg hlen] at hsome
      obtain ⟨hrowlt, hrowfree⟩ := selectUnassigned_spec (d := d) hnd hlt hlen
      refine tryValues_extends hrowfree ?_ ?_ _ d res hsome
      · intro col d' res' hs r c hl
        exact ih _ d' res' (dinsert_keys_nodup hnd hrowfree)
          (dinsert_keys_lt hlt hrowlt hrowfree) hs r c hl
      · intro col d' hn
        exact backtrackAux_none fuel _ d' (dinsert_keys_nodup hnd hrowfree)
          (dinsert_keys_lt hlt hrowlt hrowfree) hn

theorem seedGo_preserves {n : Nat} {os : Nat → List Nat → Nat} {d : Domains} :
    ∀ (rows : List Nat) (a : AList) (t : Nat) (r c : Nat),
      alookup a r = some c → alookup (seedGo n os d rows a t).1 r = some c := by
  intro rows
  induction rows with
  | nil => intro a t r c h; exact h
  | cons row rows ih =>
    intro a t r c h
    rw [seedGo]
    split
    · exact ih a t r c h
    case isFalse hnotsome =>
      have hfree : alookup a row = none := by
        rcases hl : alookup a row with _ | v
        · rfl
        · rw [hl] at hnotsome; simp at hnotsome
      have hne : r ≠ row := fun he => by rw [he, hfree] at h; exact Option.noConfusion h
      have hkeep : ∀ col t', alookup (seedGo n os d rows (dinsert a row col) t').1 r = some c := by
        intro col t'
        apply ih
        rw [alookup_dinsert_ne hne]
        exact h
      dsimp only
      split
      · exact hkeep _ _
      · exact hkeep _ _

theorem conflictedRows_not_fixed {n : Nat} {fixed : List Nat} {a : AList} {r : Nat}
    (h : r ∈ conflictedRows n fixed a) : r ∉ fixed := by
  unfold conflictedRows at h
  obtain ⟨-, h2⟩ := List.mem_filter.1 h
  simp only [Bool.and_eq_true, Bool.not_eq_true'] at h2
  intro hmem
  have hc : fixed.contains r = true := by simpa using hmem
  rw [hc] at h2
  simp at h2

theorem mcLoop_preserves {n : Nat} {os : Nat → List Nat → Nat} {fixed : List Nat} :
    ∀ (steps : Nat) (a : AList) (t : Nat) (A : AList),
      mcLoop n os fixed steps a t = some A →
      ∀ r c, r ∈ fixed → alookup a r = some c → alookup A r = some c := by
  intro steps
  induction steps with
  | zero => intro a t A h; simp [mcLoop] at h
  | succ steps ih =>
    intro a t A h r c hfx hlook
    rw [mcLoop] at h
    split at h
    case isTrue =>
      obtain rfl : a = A := by simpa using h
      exact hlook
    case isFalse hcr =>
      dsimp only at h
      refine ih _ _ _ h r c hfx ?_
      have hrowmem : rchoice os t (conflictedRows n fixed a) ∈ conflictedRows n fixed a :=
        rchoice_mem (fun hnil => hcr (by rw [hnil]; rfl))
      have hne : r ≠ rchoice os t (conflictedRows n fixed a) :=
        fun he => conflictedRows_not_fixed hrowmem (he ▸ hfx)
      rw [alookup_dinsert_ne hne]
      exact hlook

/-- C7: for both search strategies, whenever `solve` returns an assignment it
agrees with the partial assignment on every fixed row: no operation of a
solve reassigns or removes a row fixed by the partial assignment. -/
theorem nq_C7_fixed_rows_preserved (n : Nat) (P : AList) (os : Nat → List Nat → Nat)
    (A : AList) (hnd : (akeys P).Nodup) (hklt : ∀ k ∈ akeys P, k < n)
    (_hvlt : ∀ p ∈ P, p.2 < n) (hsolve : solve n P os = some A) :
    ∀ r c, (r, c) ∈ P → alookup A r = some c := by
  intro r c hmem
  have hlook : alookup P r = some c := mem_alookup hnd hmem
  unfold solve at hsolve
  by_cases hn : n ≤ 100
  · rw [if_pos hn] at hsolve
    unfold backtrackSearch at hsolve
    rcases hac : ac3 n (initDomains n P) with _ | ⟨b, d'⟩
    · rw [hac] at hsolve
      exact absurd hsolve (by simp)
    · rw [hac] at hsolve
      cases b with
      | false => exact absurd hsolve (by simp)
      | true =>
        dsimp only at hsolve
        exact backtrackAux_extends (n + 1) P d' A hnd hklt hsolve r c hlook
  · rw [if_neg hn] at hsolve
    unfold minConflicts at hsolve
    refine mcLoop_preserves _ _ _ _ hsolve r c ?_ ?_
    · exact alookup_isSome.1 (by rw [hlook]; rfl)
    · exact seedGo_preserves _ _ _ _ _ hlook

/-- Witness for C7: `n = 4` with fixed row `{0: 1}`. -/
theorem nq_C7_witness :
    alookup [(0, 1), (1, 3), (2, 0), (3, 2)] 0 = some 1 :=
  nq_C7_fixed_rows_preserved 4 [(0, 1)] osZero [(0, 1), (1, 3), (2, 0), (3, 2)]
    (by simp [akeys]) (by simp [akeys]) (by simp) (by decide) 0 1 (by simp)

/-! ## Claim C5: a complete valid partial assignment is returned unchanged -/

theorem keys_complete {n : Nat} {a : AList} (hnd : (akeys a).Nodup)
    (hlt : ∀ k ∈ akeys a, k < n) (hlen : a.length = n) :
    ∀ r, r < n → r ∈ akeys a := by
  intro r hr
  have h1 : (akeys a).toFinset ⊆ Finset.range n :=
    fun k hk => Finset.mem_range.2 (hlt k (List.mem_toFinset.1 hk))
  have hcard : (akeys a).toFinset.card = n := by
    rw [List.toFinset_card_of_nodup hnd]
    rw [show (akeys a).length = a.length from List.length_map a Prod.fst, hlen]
  have heq : (akeys a).toFinset = Finset.range n :=
    Finset.eq_of_subset_of_card_le h1 (by rw [hcard, Finset.card_range])
  exact List.mem_toFinset.1 (heq ▸ Finset.mem_range.2 hr)

theorem revise_false_of_valid {n i j ci cj : Nat} {d : Domains}
    (hdi : d i = {ci}) (hdj : d j = {cj}) (hne : ¬ Attacks i ci j cj) :
    (revise n i j d).2 = false := by
  have hcol : ci ≠ cj := fun h => hne (Or.inl h)
  have hdiag : Nat.dist i j ≠ Nat.dist ci cj := fun h => hne (Or.inr h)
  have hcard : (d j).card = 1 := by rw [hdj]; exact Finset.card_singleton cj
  have hsel : sElem (d j) = cj := by rw [hdj, sElem, fsort_singleton]; rfl
  unfold revise
  rw [if_pos hcard]
  dsimp only
  unfold reviseSingle
  rw [hsel, hdi]
  dsimp only
  have g1 : cj ∉ ({ci} : Finset Nat) := by
    rw [Finset.mem_singleton]
    exact fun h => hcol h.symm
  rw [if_neg g1]
  have g2 : ¬ (cj + Nat.dist i j < n ∧ cj + Nat.dist i j ∈ (({ci} : Finset Nat), false).1) := by
    rintro ⟨-, hmem⟩
    rw [Finset.mem_singleton] at hmem
    apply hdiag
    simp only [Nat.dist] at hmem ⊢
    omega
  rw [if_neg g2]
  have g3 : ¬ (Nat.dist i j ≤ cj ∧ cj - Nat.dist i j ∈ (({ci} : Finset Nat), false).1) := by
    rintro ⟨hle, hmem⟩
    rw [Finset.mem_singleton] at hmem
    apply hdiag
    simp only [Nat.dist] at hmem hle ⊢
    omega
  rw [if_neg g3]

theorem ac3go_all_false {n : Nat} {d : Domains}
    (hrev : ∀ i j, i < n → j < n → i ≠ j → (revise n i j d).2 = false) :
    ∀ (fuel : Nat) (q : List (Nat × Nat)),
      (∀ p ∈ q, p.1 < n ∧ p.2 < n ∧ p.1 ≠ p.2) → q.length < fuel →
      ac3go n fuel q d = some (true, d) := by
  intro fuel
  induction fuel with
  | zero => intro q _ hq; omega
  | succ fuel ih =>
    intro q hq hlen
    match q with
    | [] => rfl
    | (i, j) :: q' =>
      obtain ⟨hi, hj, hij⟩ := hq (i, j) (List.mem_cons_self _ _)
      rw [ac3go, if_neg (by rw [hrev i j hi hj hij]; simp)]
      apply ih
      · exact fun p hp => hq p (List.mem_cons_of_mem _ hp)
      · simp only [List.length_cons] at hlen
        omega

theorem mem_initQueue {n : Nat} {p : Nat × Nat} (hp : p ∈ initQueue n) :
    p.1 < n ∧ p.2 < n ∧ p.1 ≠ p.2 := by
  obtain ⟨i, hi, hj⟩ := List.mem_flatMap.1 hp
  obtain ⟨k, hk, rfl⟩ := List.mem_map.1 hj
  obtain ⟨hkr, hkne⟩ := List.mem_filter.1 hk
  exact ⟨List.mem_range.1 hi, List.mem_range.1 hkr, fun he => (by simpa using hkne : ¬ k = i) he.symm⟩

theorem seedGo_all_assigned {n : Nat} {os : Nat → List Nat → Nat} {d : Domains} :
    ∀ (rows : List Nat) (a : AList) (t : Nat),
      (∀ r ∈ rows, (alookup a r).isSome) → seedGo n os d rows a t = (a, t) := by
  intro rows
  induction rows with
  | nil => intro a t _; rfl
  | cons row rows ih =>
    intro a t hall
    rw [seedGo, if_pos (hall row (List.mem_cons_self _ _))]
    exact ih a t (fun r hr => hall r (List.mem_cons_of_mem _ hr))

/-- C5: a partial assignment that is itself a complete valid n-queens
solution is returned exactly, by both strategies. -/
theorem nq_C5_complete_solution_returned (n : Nat) (P : AList)
    (os : Nat → List Nat → Nat) (hnd : (akeys P).Nodup)
    (hklt : ∀ k ∈ akeys P, k < n) (_hvlt : ∀ p ∈ P, p.2 < n) (hlen : P.length = n)
    (hvalid : ∀ p ∈ P, ∀ q ∈ P, p.1 ≠ q.1 → ¬ Attacks p.1 p.2 q.1 q.2) :
    solve n P os = some P := by
  have hkeys := keys_complete hnd hklt hlen
  have hsingle : ∀ r, r < n → ∃ c, alookup P r = some c ∧ initDomains n P r = {c} := by
    intro r hr
    rcases hl : alookup P r with _ | c
    · exact absurd (alookup_eq_none.1 hl) (by simpa using hkeys r hr)
    · exact ⟨c, rfl, by unfold initDomains; rw [hl]⟩
  unfold solve
  by_cases hn : n ≤ 100
  · rw [if_pos hn]
    unfold backtrackSearch
    have hac : ac3 n (initDomains n P) = some (true, initDomains n P) := by
      unfold ac3 ac3Fuel
      apply ac3go_all_false
      · intro i j hi hj hij
        obtain ⟨ci, hli, hdi⟩ := hsingle i hi
        obtain ⟨cj, hlj, hdj⟩ := hsingle j hj
        exact revise_false_of_valid hdi hdj
          (hvalid (i, ci) (alookup_mem hli) (j, cj) (alookup_mem hlj) hij)
      · exact fun p hp => mem_initQueue hp
      · omega
    rw [hac]
    dsimp only
    rw [backtrackAux, if_pos hlen]
  · rw [if_neg hn]
    unfold minConflicts
    rw [seedGo_all_assigned (List.range n) P 0 (fun r hr =>
      alookup_isSome.2 (hkeys r (List.mem_range.1 hr)))]
    obtain ⟨k, hk⟩ : ∃ k, n * 100 = k + 1 := ⟨n * 100 - 1, by omega⟩
    rw [hk, mcLoop]
    have hcr : conflictedRows n (akeys P) P = [] := by
      unfold conflictedRows
      rw [List.filter_eq_nil_iff]
      intro r hr
      have hmem : r ∈ akeys P := hkeys r (List.mem_range.1 hr)
      simp [hmem]
    rw [hcr]
    rfl

/-- Witness for C5: the classic 4-queens solution `{0:1, 1:3, 2:0, 3:2}`. -/
theorem nq_C5_witness :
    solve 4 [(0, 1), (1, 3), (2, 0), (3, 2)] osZero = some [(0, 1), (1, 3), (2, 0), (3, 2)] :=
  nq_C5_complete_solution_returned 4 [(0, 1), (1, 3), (2, 0), (3, 2)] osZero
    (by simp [akeys]) (by simp [akeys]) (by simp) (by simp) (by decide)

/-! ## Claim C6: a conflicting partial assignment and infeasibility -/

theorem reviseSingle_conflict {n r1 r2 c1 c2 : Nat} {d : Domains}
    (hdi : d r1 = {c1}) (hdj : d r2 = {c2}) (hat : Attacks r1 c1 r2 c2)
    (hc1 : c1 < n) (hne : r1 ≠ r2) :
    (reviseSingle n r1 r2 d).2 = true ∧ (reviseSingle n r1 r2 d).1 = ∅ := by
  have hsub : d r1 ⊆ Finset.range n := by
    rw [hdi]
    intro x hx
    rw [Finset.mem_singleton] at hx
    subst hx
    exact Finset.mem_range.2 hc1
  rw [reviseSingle_eq_genImpl hne hdj hsub]
  unfold reviseGenImpl
  dsimp only
  have hpc : conflictAll r1 r2 c1 (d r2) = true := by
    rw [hdj]
    simp only [conflictAll, fsort_singleton, List.all_cons, List.all_nil, Bool.and_true]
    rcases hat with h | h
    · simp [h]
    · simp [h]
  have hR : (d r1).filter (fun ci => conflictAll r1 r2 ci (d r2)) = {c1} := by
    rw [hdi, Finset.filter_singleton, if_pos hpc]
  rw [hR, hdi]
  constructor
  · rw [decide_eq_true_iff]
    exact Finset.singleton_ne_empty c1
  · exact Finset.sdiff_self {c1}

theorem revise_conflict {n r1 r2 c1 c2 : Nat} {d : Domains}
    (hdi : d r1 = {c1}) (hdj : d r2 = {c2}) (hat : Attacks r1 c1 r2 c2)
    (hc1 : c1 < n) (hne : r1 ≠ r2) :
    (revise n r1 r2 d).2 = true ∧ (revise n r1 r2 d).1 r1 = ∅ := by
  obtain ⟨hf, he⟩ := reviseSingle_conflict hdi hdj hat hc1 hne
  have hcard : (d r2).card = 1 := by rw [hdj]; exact Finset.card_singleton c2
  unfold revise
  rw [if_pos hcard]
  refine ⟨hf, ?_⟩
  show Function.update d r1 (reviseSingle n r1 r2 d).1 r1 = ∅
  rw [Function.update_same, he]

theorem ac3go_conflict {n r1 r2 c1 c2 : Nat} (hat : Attacks r1 c1 r2 c2)
    (hne : r1 ≠ r2) (hc1 : c1 < n) :
    ∀ (fuel : Nat) (q : List (Nat × Nat)) (d : Domains),
      (∀ p ∈ q, p.1 < n) →
      q.length + n * totalCard n d < fuel →
      (r1, r2) ∈ q → d r1 = {c1} → d r2 = {c2} →
      ∃ d', ac3go n fuel q d = some (false, d') := by
  intro fuel
  induction fuel with
  | zero => intro q d _ hΦ _ _ _; omega
  | succ fuel ih =>
    intro q d hq hΦ hmem hd1 hd2
    match q with
    | [] => exact absurd hmem (List.not_mem_nil _)
    | (i, j) :: q' =>
      by_cases hij : (i, j) = (r1, r2)
      · injection hij with hi1 hj1
        subst hi1
        subst hj1
        obtain ⟨hf, he⟩ := revise_conflict hd1 hd2 hat hc1 hne
        rw [ac3go, if_pos hf, if_pos he]
        exact ⟨(revise n i j d).1, rfl⟩
      · have hmem' : (r1, r2) ∈ q' := by
          rcases List.mem_cons.1 hmem with h | h
          · exact absurd h.symm hij
          · exact h
        rw [ac3go]
        by_cases hrev : (revise n i j d).2
        · rw [if_pos hrev]
          by_cases hemp : (revise n i j d).1 i = ∅
          · rw [if_pos hemp]
            exact ⟨(revise n i j d).1, rfl⟩
          · rw [if_neg hemp]
            have hi : i < n := hq (i, j) (List.mem_cons_self _ _)
            have hir1 : i ≠ r1 := by
              rintro rfl
              have hss := revise_true_ssubset hrev
              rw [hd1] at hss
              exact hemp (Finset.ssubset_singleton_iff.1 hss)
            have hir2 : i ≠ r2 := by
              rintro rfl
              have hss := revise_true_ssubset hrev
              rw [hd2] at hss
              exact hemp (Finset.ssubset_singleton_iff.1 hss)
            apply ih
            · intro p hp
              rcases List.mem_append.1 hp with hp | hp
              · exact hq p (List.mem_cons_of_mem _ hp)
              · obtain ⟨k, hk, rfl⟩ := List.mem_map.1 hp
                exact List.mem_range.1 (List.mem_of_mem_filter hk)
            · have hcard : (((revise n i j d).1) i).card < (d i).card :=
                Finset.card_lt_card (revise_true_ssubset hrev)
              have hT : totalCard n (revise n i j d).1 < totalCard n d :=
                totalCard_lt hi hcard (fun k hk => revise_fst_other hk)
              have hlen : (((List.range n).filter (fun k => k != i && k != j)).map
                  (fun k => (k, i))).length ≤ n := by
                rw [List.length_map]
                exact le_trans (List.length_filter_le _ _) (by rw [List.length_range])
              have hmul : n * totalCard n (revise n i j d).1 + n ≤ n * totalCard n d := by
                have h1 : totalCard n (revise n i j d).1 + 1 ≤ totalCard n d := hT
                calc n * totalCard n (revise n i j d).1 + n
                    = n * (totalCard n (revise n i j d).1 + 1) := by ring
                  _ ≤ n * totalCard n d := Nat.mul_le_mul_left n h1
              rw [List.length_append]
              simp only [List.length_cons] at hΦ
              omega
            · exact List.mem_append_left _ hmem'
            · rw [revise_fst_other (Ne.symm hir1)]
              exact hd1
            · rw [revise_fst_other (Ne.symm hir2)]
              exact hd2
        · rw [if_neg hrev]
          apply ih
          · exact fun p hp => hq p (List.mem_cons_of_mem _ hp)
          · simp only [List.length_cons] at hΦ
            omega
          · exact hmem'
          · exact hd1
          · exact hd2

theorem initQueue_mem {n i j : Nat} (hi : i < n) (hj : j < n) (hij : i ≠ j) :
    (i, j) ∈ initQueue n := by
  unfold initQueue
  rw [List.mem_flatMap]
  refine ⟨i, List.mem_range.2 hi, ?_⟩
  rw [List.mem_map]
  refine ⟨j, List.mem_filter.2 ⟨List.mem_range.2 hj, by simpa using Ne.symm hij⟩, rfl⟩

/-- C6 counterexample: for `n = 101` (the min-conflicts path) the complete
partial assignment putting every queen in column 0 — massively
self-conflicting — is returned as a "solution" at the first repair step,
because the repair loop only examines non-fixed rows and there are none. -/
theorem nq_C6_counterexample :
    solve 101 ((List.range 101).map (fun r => (r, 0))) osZero
        = some ((List.range 101).map (fun r => (r, 0))) ∧
      (0, 0) ∈ (List.range 101).map (fun r => (r, (0 : Nat))) ∧
      (1, 0) ∈ (List.range 101).map (fun r => (r, (0 : Nat))) ∧
      Attacks 0 0 1 0 := by
  refine ⟨by decide, by decide, by decide, by decide⟩

/-- C6 (amended): for every `n ≤ 100` — the backtracking path — a partial
assignment with two fixed rows attacking each other makes `solve` report
infeasible (AC3 empties the first row's domain); for `n > 100` the
min-conflicts path can instead return an assignment with the conflict intact
(see the counterexample). -/
theorem nq_C6_amended (n : Nat) (P : AList) (os : Nat → List Nat → Nat)
    (r1 c1 r2 c2 : Nat) (hn : n ≤ 100) (hnd : (akeys P).Nodup)
    (hklt : ∀ k ∈ akeys P, k < n) (hvlt : ∀ p ∈ P, p.2 < n)
    (h1 : (r1, c1) ∈ P) (h2 : (r2, c2) ∈ P) (hne : r1 ≠ r2)
    (hat : Attacks r1 c1 r2 c2) :
    solve n P os = none := by
  have hl1 : alookup P r1 = some c1 := mem_alookup hnd h1
  have hl2 : alookup P r2 = some c2 := mem_alookup hnd h2
  have hd1 : initDomains n P r1 = {c1} := by unfold initDomains; rw [hl1]
  have hd2 : initDomains n P r2 = {c2} := by unfold initDomains; rw [hl2]
  have hr1n : r1 < n := hklt r1 (by simpa [akeys] using List.mem_map_of_mem Prod.fst h1)
  have hr2n : r2 < n := hklt r2 (by simpa [akeys] using List.mem_map_of_mem Prod.fst h2)
  have hc1n : c1 < n := hvlt (r1, c1) h1
  obtain ⟨d', hd'⟩ := ac3go_conflict hat hne hc1n
    (ac3Fuel n (initQueue n) (initDomains n P)) (initQueue n) (initDomains n P)
    (fun p hp => (mem_initQueue hp).1)
    (by unfold ac3Fuel; omega)
    (initQueue_mem hr1n hr2n hne) hd1 hd2
  unfold solve
  rw [if_pos hn]
  unfold backtrackSearch
  rw [show ac3 n (initDomains n P) = some (false, d') from hd']

/-- Witness for C6's amended theorem: `n = 4` with conflicting fixed rows
`{0: 0, 1: 1}` (same diagonal). -/
theorem nq_C6_witness : solve 4 [(0, 0), (1, 1)] osZero = none :=
  nq_C6_amended 4 [(0, 0), (1, 1)] osZero 0 0 1 1 (by omega) (by simp [akeys])
    (by simp [akeys]) (by simp) (by simp) (by simp) (by omega) (by decide)

/-! ## Claim C1: behaviour of `solve` with no partial assignment, n ≥ 4 -/

theorem initDomains_nil (n r : Nat) : initDomains n [] r = Finset.range n := by
  unfold initDomains
  rw [show alookup [] r = none from rfl]
  exact Finset.filter_true_of_mem (fun c _ => rfl)

theorem conflictAll_false_full {n i j ci : Nat} (hn : 4 ≤ n) (_hij : i ≠ j) :
    conflictAll i j ci (Finset.range n) = false := by
  rcases hb : conflictAll i j ci (Finset.range n) with _ | _
  · rfl
  · exfalso
    rw [conflictAll, fsort_range, List.all_eq_true] at hb
    have hsub : Finset.range n ⊆ {ci, ci + Nat.dist i j, ci - Nat.dist i j} := by
      intro cj hcj
      have := hb cj (List.mem_range.2 (Finset.mem_range.1 hcj))
      simp only [Bool.or_eq_true, beq_iff_eq] at this
      simp only [Finset.mem_insert, Finset.mem_singleton]
      rcases this with h | h
      · exact Or.inl h.symm
      · simp only [Nat.dist] at h ⊢
        omega
    have hcard := Finset.card_le_card hsub
    rw [Finset.card_range] at hcard
    have h3 : ({ci, ci + Nat.dist i j, ci - Nat.dist i j} : Finset Nat).card ≤ 3 :=
      le_trans (Finset.card_insert_le _ _) (by
        have := Finset.card_insert_le (ci + Nat.dist i j)
          ({ci - Nat.dist i j} : Finset Nat)
        simp only [Finset.card_singleton] at this ⊢
        omega)
    omega

theorem revise_false_full {n i j : Nat} {d : Domains} (hn : 4 ≤ n) (hij : i ≠ j)
    (hdi : d i = Finset.range n) (hdj : d j = Finset.range n) :
    (revise n i j d).2 = false := by
  have hcard : ¬ (d j).card = 1 := by
    rw [hdj, Finset.card_range]
    omega
  unfold revise
  rw [if_neg hcard]
  dsimp only
  unfold reviseGenImpl
  dsimp only
  rw [decide_eq_false_iff_not, not_not]
  rw [hdi, hdj]
  exact Finset.filter_false_of_mem
    (fun c _ => by rw [conflictAll_false_full hn hij]; exact Bool.false_ne_true)

/-- AC3 with no partial assignment and `n ≥ 4` succeeds without changing the
(full) domains. -/
theorem ac3_full (n : Nat) (hn : 4 ≤ n) :
    ac3 n (initDomains n []) = some (true, initDomains n []) := by
  unfold ac3 ac3Fuel
  apply ac3go_all_false
  · intro i j hi hj hij
    exact revise_false_full hn hij (initDomains_nil n i) (initDomains_nil n j)
  · exact fun p hp => ⟨(mem_initQueue hp).1, (mem_initQueue hp).2.1, (mem_initQueue hp).2.2⟩
  · omega

/-- Pairwise validity checker for a queens board given as the list of column
positions by row (`queensCheckOne c k rest`: column `c` against the columns
`k, k+1, ...` rows below it). -/
def queensCheckOne (c : Nat) : Nat → List Nat → Bool
  | _, [] => true
  | k, c' :: rest => !(c == c' || Nat.dist c c' == k) && queensCheckOne c (k + 1) rest

def queensOK : List Nat → Bool
  | [] => true
  | c :: rest => queensCheckOne c 1 rest && queensOK rest

theorem queensCheckOne_spec (c : Nat) :
    ∀ (k : Nat) (l : List Nat), queensCheckOne c k l = true →
      ∀ i, i < l.length → ¬ (c = l.getD i 0 ∨ Nat.dist c (l.getD i 0) = k + i)
  | k, [], _ => by intro i hi; simp at hi
  | k, c' :: rest, h => by
    intro i hi
    rw [queensCheckOne, Bool.and_eq_true] at h
    obtain ⟨h1, h2⟩ := h
    match i with
    | 0 =>
      simp only [List.getD_cons_zero, Nat.add_zero]
      simp only [Bool.not_eq_true', Bool.or_eq_false_iff, beq_eq_false_iff_ne] at h1
      rintro (he | he)
      · exact h1.1 he
      · exact h1.2 he
    | i + 1 =>
      simp only [List.getD_cons_succ]
      have := queensCheckOne_spec c (k + 1) rest h2 i (by
        simp only [List.length_cons] at hi
        omega)
      rw [show k + (i + 1) = k + 1 + i from by omega]
      exact this

theorem queensOK_spec :
    ∀ (l : List Nat), queensOK l = true →
      ∀ i j, i < j → j < l.length →
        ¬ Attacks i (l.getD i 0) j (l.getD j 0)
  | [], _ => by intro i j _ hj; simp at hj
  | c :: rest, h => by
    intro i j hij hj
    rw [queensOK, Bool.and_eq_true] at h
    obtain ⟨h1, h2⟩ := h
    match i, j with
    | 0, j + 1 =>
      simp only [List.getD_cons_zero, List.getD_cons_succ]
      have := queensCheckOne_spec c 1 rest h1 j (by
        simp only [List.length_cons] at hj
        omega)
      intro hat
      apply this
      rcases hat with he | he
      · exact Or.inl he
      · right
        simp only [Nat.dist] at he ⊢
        omega
    | i + 1, j + 1 =>
      simp only [List.getD_cons_succ]
      have := queensOK_spec rest h2 i j (by omega) (by
        simp only [List.length_cons] at hj
        omega)
      intro hat
      apply this
      rcases hat with he | he
      · exact Or.inl he
      · right
        simp only [Nat.dist] at he ⊢
        omega
/-- No two distinct entries of an assignment attack each other. -/
def NoConflicts (a : AList) : Prop :=
  ∀ p ∈ a, ∀ q ∈ a, p.1 ≠ q.1 → ¬ Attacks p.1 p.2 q.1 q.2

/-- A complete, well-formed, conflict-free assignment for board size `n`. -/
def GoodSol (n : Nat) (a : AList) : Prop :=
  a.length = n ∧ (akeys a).Nodup ∧ (∀ k ∈ akeys a, k < n) ∧ NoConflicts a

theorem noConflicts_dinsert {a : AList} {row col : Nat} (hnc : NoConflicts a)
    (hfree : alookup a row = none) (hcons : isConsistent row col a = true) :
    NoConflicts (dinsert a row col) := by
  rw [dinsert_eq_append hfree]
  have hrow : ∀ p ∈ a, p.1 ≠ row := by
    intro p hp h
    exact alookup_eq_none.1 hfree (h ▸ List.mem_map.2 ⟨p, hp, rfl⟩)
  have hcsp := isConsistent_iff.1 hcons
  intro p hp q hq hne
  rcases List.mem_append.1 hp with hp | hp <;> rcases List.mem_append.1 hq with hq | hq
  · exact hnc p hp q hq hne
  · simp only [List.mem_singleton] at hq
    subst hq
    exact hcsp p hp
  · simp only [List.mem_singleton] at hp
    subst hp
    exact fun hat => hcsp q hq (attacks_symm hat)
  · simp only [List.mem_singleton] at hp hq
    subst hp
    subst hq
    exact absurd rfl hne

theorem alist_length_le {n : Nat} {a : AList} (hnd : (akeys a).Nodup)
    (hklt : ∀ k ∈ akeys a, k < n) : a.length ≤ n := by
  have h1 : (akeys a).toFinset ⊆ Finset.range n :=
    fun k hk => Finset.mem_range.2 (hklt k (List.mem_toFinset.1 hk))
  have hcard := Finset.card_le_card h1
  rw [Finset.card_range, List.toFinset_card_of_nodup hnd] at hcard
  calc a.length = (akeys a).length := (List.length_map a Prod.fst).symm
    _ ≤ n := hcard

/-- When a target value survives in every free row, the forward-check loop
succeeds, and every output domain is either the input domain or its
attack-filtered subset. -/
theorem fcGo_success {row col : Nat} {a1 : AList} {S : Nat → Nat} :
    ∀ (rs : List Nat) (d : Domains) (pr : List (Nat × List Nat)),
      rs.Nodup →
      (∀ r ∈ rs, alookup a1 r = none → r ≠ row →
        S r ∈ d r ∧ attacksB row col r (S r) = false) →
      (fcGo row col a1 rs d pr).1 = true ∧
      ∀ r, (fcGo row col a1 rs d pr).2.1 r = d r ∨
        (fcGo row col a1 rs d pr).2.1 r
          = (d r).filter (fun oc => !(attacksB row col r oc)) := by
  intro rs
  induction rs with
  | nil => intro d pr _ _; exact ⟨rfl, fun r => Or.inl rfl⟩
  | cons r rs ih =>
    intro d pr hnd hmem
    rw [List.nodup_cons] at hnd
    rw [fcGo]
    split
    case isTrue hcond =>
      simp only [Bool.and_eq_true, bne_iff_ne, ne_eq, Option.isNone_iff_eq_none] at hcond
      obtain ⟨hrrow, hfree⟩ := hcond
      obtain ⟨hS, hatt⟩ := hmem r (List.mem_cons_self r rs) hfree hrrow
      have hSf : S r ∈ (d r).filter (fun oc => !(attacksB row col r oc)) :=
        Finset.mem_filter.2 ⟨hS, by rw [hatt]; rfl⟩
      have hne : ¬ (Function.update d r
          ((d r).filter (fun oc => !(attacksB row col r oc))) r = ∅) := by
        rw [Function.update_same]
        intro h
        rw [h] at hSf
        exact absurd hSf (Finset.not_mem_empty _)
      dsimp only
      rw [if_neg hne]
      have hmem' : ∀ r' ∈ rs, alookup a1 r' = none → r' ≠ row →
          S r' ∈ (Function.update d r
            ((d r).filter (fun oc => !(attacksB row col r oc)))) r' ∧
            attacksB row col r' (S r') = false := by
        intro r' hr' hf' hw'
        have hner : r' ≠ r := fun h => hnd.1 (h ▸ hr')
        rw [Function.update_noteq hner]
        exact hmem r' (List.mem_cons_of_mem _ hr') hf' hw'
      obtain ⟨h1, h2⟩ := ih (Function.update d r
          ((d r).filter (fun oc => !(attacksB row col r oc))))
        (if (pruneRow row col r (d r)).isEmpty then pr
          else pr ++ [(r, pruneRow row col r (d r))]) hnd.2 hmem'
      refine ⟨h1, fun r' => ?_⟩
      rcases h2 r' with h | h
      · by_cases hr' : r' = r
        · subst hr'
          right
          rw [h, Function.update_same]
        · left
          rw [h, Function.update_noteq hr']
      · by_cases hr' : r' = r
        · subst hr'
          right
          rw [h, Function.update_same]
          ext x
          simp only [Finset.mem_filter, and_assoc]
          tauto
        · right
          rw [h, Function.update_noteq hr']
    case isFalse hcond =>
      exact ih d pr hnd.2 (fun r' hr' => hmem r' (List.mem_cons_of_mem _ hr'))

/-- A candidate that succeeds makes the whole candidate loop succeed with the
same solution. -/
theorem tryValues_cons_of_success {n row col : Nat}
    {bt : AList → Domains → Option AList × AList × Domains} {a : AList} {d : Domains}
    {sol : AList} (hsol : (tryValues n row bt a d [col]).1 = some sol) :
    ∀ cols, (tryValues n row bt a d (col :: cols)).1 = some sol := by
  intro cols
  rw [tryValues] at hsol ⊢
  by_cases hcons : isConsistent row col a
  case neg =>
    rw [if_neg hcons] at hsol
    rw [tryValues] at hsol
    exact absurd hsol (by simp)
  case pos =>
    rw [if_pos hcons] at hsol ⊢
    dsimp only at hsol ⊢
    by_cases hfc : (forwardCheck n row col (dinsert a row col) d).1
    · rw [if_pos hfc] at hsol ⊢
      cases hres : (bt (dinsert a row col)
          (forwardCheck n row col (dinsert a row col) d).2.1).1 with
      | none =>
        rw [hres] at hsol
        dsimp only at hsol
        rw [tryValues] at hsol
        exact absurd hsol (by simp)
      | some sol' =>
        rw [hres] at hsol
        dsimp only at hsol ⊢
        exact hsol
    · rw [if_neg hfc] at hsol
      dsimp only at hsol
      rw [tryValues] at hsol
      exact absurd hsol (by simp)
/-- Trying the target solution's value for the chosen row always succeeds,
provided the recursive call succeeds whenever the target survives in all free
domains. -/
theorem tryValues_single_some {n row : Nat}
    {bt : AList → Domains → Option AList × AList × Domains} {a : AList} {d : Domains}
    {S : Nat → Nat}
    (hfree : alookup a row = none) (hrow : row < n)
    (hSp : ∀ i j, i < n → j < n → i ≠ j → ¬ Attacks i (S i) j (S j))
    (hklt : ∀ k ∈ akeys a, k < n)
    (hext : ∀ p ∈ a, S p.1 = p.2)
    (hInv : ∀ r, r < n → alookup a r = none → S r ∈ d r)
    (hbtcomp : ∀ d', (∀ r, r < n → alookup (dinsert a row (S row)) r = none → S r ∈ d' r) →
        (bt (dinsert a row (S row)) d').1.isSome = true) :
    (tryValues n row bt a d [S row]).1.isSome = true := by
  have hcons : isConsistent row (S row) a = true := by
    rw [isConsistent_iff]
    intro p hp
    have hk : p.1 ∈ akeys a := List.mem_map.2 ⟨p, hp, rfl⟩
    have hpl : p.1 < n := hklt _ hk
    have hne : p.1 ≠ row := fun h => (alookup_eq_none.1 hfree) (h ▸ hk)
    have hna := hSp p.1 row hpl hrow hne
    rw [hext p hp] at hna
    exact hna
  have hfree1 : ∀ r, alookup (dinsert a row (S row)) r = none →
      alookup a r = none ∧ r ≠ row := by
    intro r h
    by_cases hr : r = row
    · subst hr
      rw [alookup_dinsert_self] at h
      cases h
    · rw [alookup_dinsert_ne hr] at h
      exact ⟨h, hr⟩
  have hfc := @fcGo_success row (S row) (dinsert a row (S row)) S
    (List.range n) d [] (List.nodup_range n) (by
      intro r hr hf hw
      obtain ⟨hfa, _⟩ := hfree1 r hf
      have hrn : r < n := List.mem_range.1 hr
      refine ⟨hInv r hrn hfa, ?_⟩
      have hna := hSp row r hrow hrn (fun h => hw h.symm)
      rcases hb : attacksB row (S row) r (S r) with _ | _
      · rfl
      · exact absurd (attacksB_iff.1 hb) hna)
  have hfc1 : (forwardCheck n row (S row) (dinsert a row (S row)) d).1 = true := hfc.1
  have hbt := hbtcomp (forwardCheck n row (S row) (dinsert a row (S row)) d).2.1 (by
    intro r hrn hf
    obtain ⟨hfa, hw⟩ := hfree1 r hf
    have hS : S r ∈ d r := hInv r hrn hfa
    rcases hfc.2 r with h | h
    · rw [show (forwardCheck n row (S row) (dinsert a row (S row)) d).2.1 r
          = (fcGo row (S row) (dinsert a row (S row)) (List.range n) d []).2.1 r from rfl, h]
      exact hS
    · rw [show (forwardCheck n row (S row) (dinsert a row (S row)) d).2.1 r
          = (fcGo row (S row) (dinsert a row (S row)) (List.range n) d []).2.1 r from rfl, h]
      refine Finset.mem_filter.2 ⟨hS, ?_⟩
      have hna := hSp row r hrow hrn (fun h => hw h.symm)
      rcases hb : attacksB row (S row) r (S r) with _ | _
      · rfl
      · exact absurd (attacksB_iff.1 hb) hna)
  obtain ⟨sol, hsol⟩ := Option.isSome_iff_exists.1 hbt
  rw [tryValues, if_pos hcons]
  dsimp only
  rw [hfc1, if_pos rfl, hsol]
  rfl

/-- If the target solution's value for the row is among the candidates, the
candidate loop succeeds. -/
theorem tryValues_complete {n row : Nat}
    {bt : AList → Domains → Option AList × AList × Domains} {a : AList} {S : Nat → Nat}
    (hfree : alookup a row = none) (hrow : row < n)
    (hSp : ∀ i j, i < n → j < n → i ≠ j → ¬ Attacks i (S i) j (S j))
    (hklt : ∀ k ∈ akeys a, k < n)
    (hext : ∀ p ∈ a, S p.1 = p.2)
    (hbtnone : ∀ col d', (bt (dinsert a row col) d').1 = none →
        (bt (dinsert a row col) d').2.1 = dinsert a row col ∧
        (bt (dinsert a row col) d').2.2 = d')
    (hbtcomp : ∀ d', (∀ r, r < n → alookup (dinsert a row (S row)) r = none → S r ∈ d' r) →
        (bt (dinsert a row (S row)) d').1.isSome = true) :
    ∀ (cols : List Nat) (d : Domains), S row ∈ cols →
      (∀ r, r < n → alookup a r = none → S r ∈ d r) →
      (tryValues n row bt a d cols).1.isSome = true := by
  intro cols
  induction cols with
  | nil => intro d hmem _; cases hmem
  | cons c cols ih =>
    intro d hmem hInv
    by_cases hfail : (tryValues n row bt a d [c]).1 = none
    · have hc : c ≠ S row := by
        intro hc
        subst hc
        have hs := tryValues_single_some hfree hrow hSp hklt hext hInv hbtcomp
        rw [hfail] at hs
        cases hs
      rw [tryValues_cons_of_fail hfree (hbtnone c) hfail cols]
      refine ih d ?_ hInv
      rcases List.mem_cons.1 hmem with h | h
      · exact absurd h.symm hc
      · exact h
    · obtain ⟨sol, hsol⟩ := Option.ne_none_iff_exists'.1 hfail
      rw [tryValues_cons_of_success hsol cols]
      rfl

/-- Any solution produced by the candidate loop is complete, well-formed and
conflict-free, provided recursive results are. -/
theorem tryValues_sound {n row : Nat}
    {bt : AList → Domains → Option AList × AList × Domains} {a : AList}
    (hfree : alookup a row = none)
    (hbtnone : ∀ col d', (bt (dinsert a row col) d').1 = none →
        (bt (dinsert a row col) d').2.1 = dinsert a row col ∧
        (bt (dinsert a row col) d').2.2 = d')
    (hbt : ∀ col d' res, isConsistent row col a = true →
        (bt (dinsert a row col) d').1 = some res → GoodSol n res) :
    ∀ (cols : List Nat) (d : Domains) (res : AList),
      (tryValues n row bt a d cols).1 = some res → GoodSol n res := by
  intro cols
  induction cols with
  | nil => intro d res h; cases h
  | cons col cols ih =>
    intro d res h
    by_cases hfail : (tryValues n row bt a d [col]).1 = none
    · rw [tryValues_cons_of_fail hfree (hbtnone col) hfail cols] at h
      exact ih d res h
    · obtain ⟨sol, hsol⟩ := Option.ne_none_iff_exists'.1 hfail
      have hsr : sol = res := by
        have hsome := tryValues_cons_of_success hsol cols
        rw [h] at hsome
        cases hsome
        rfl
      subst hsr
      rw [tryValues] at hsol
      by_cases hcons : isConsistent row col a
      case neg =>
        rw [if_neg hcons] at hsol
        rw [tryValues] at hsol
        cases hsol
      case pos =>
        rw [if_pos hcons] at hsol
        dsimp only at hsol
        by_cases hfc : (forwardCheck n row col (dinsert a row col) d).1
        · rw [if_pos hfc] at hsol
          cases hres : (bt (dinsert a row col)
              (forwardCheck n row col (dinsert a row col) d).2.1).1 with
          | none =>
            rw [hres] at hsol
            dsimp only at hsol
            rw [tryValues] at hsol
            cases hsol
          | some sol' =>
            rw [hres] at hsol
            dsimp only at hsol
            have hs2 : sol' = sol := by cases hsol; rfl
            exact hs2 ▸ hbt col _ sol' hcons hres
        · rw [if_neg hfc] at hsol
          dsimp only at hsol
          rw [tryValues] at hsol
          cases hsol
/-- The LCV ordering is a permutation of the row's domain listing, so it
contains every domain value. -/
theorem mem_orderDomainValues {n row c : Nat} {a : AList} {d : Domains}
    (h : c ∈ d row) : c ∈ orderDomainValues n row a d := by
  unfold orderDomainValues
  refine List.mem_map.2 ⟨(c, lcvConflicts n row c a d), ?_, rfl⟩
  refine (List.perm_insertionSort _ _).mem_iff.2 ?_
  exact List.mem_map.2 ⟨c, mem_fsort.2 h, rfl⟩

/-- Backtracking completeness: if some total conflict-free placement `S`
extends the current assignment and survives in every free row's domain, the
search succeeds (given enough fuel). -/
theorem backtrackAux_complete {n : Nat} {S : Nat → Nat}
    (hSp : ∀ i j, i < n → j < n → i ≠ j → ¬ Attacks i (S i) j (S j)) :
    ∀ (fuel : Nat) (a : AList) (d : Domains),
      (akeys a).Nodup → (∀ k ∈ akeys a, k < n) →
      (∀ p ∈ a, S p.1 = p.2) →
      (∀ r, r < n → alookup a r = none → S r ∈ d r) →
      n < fuel + a.length →
      (backtrackAux n fuel a d).1.isSome = true := by
  intro fuel
  induction fuel with
  | zero =>
    intro a d hnd hklt _ _ hfuel
    have := alist_length_le hnd hklt
    omega
  | succ fuel ih =>
    intro a d hnd hklt hext hInv hfuel
    rw [backtrackAux]
    by_cases hlen : a.length = n
    · rw [if_pos hlen]
      rfl
    · rw [if_neg hlen]
      obtain ⟨hrowlt, hrowfree⟩ := selectUnassigned_spec (d := d) hnd hklt hlen
      refine tryValues_complete hrowfree hrowlt hSp hklt hext
        (fun col d' hn => backtrackAux_none fuel _ d' (dinsert_keys_nodup hnd hrowfree)
          (dinsert_keys_lt hklt hrowlt hrowfree) hn)
        (fun d' hInv' => ih _ d' (dinsert_keys_nodup hnd hrowfree)
          (dinsert_keys_lt hklt hrowlt hrowfree)
          (by
            intro p hp
            rw [dinsert_eq_append hrowfree] at hp
            rcases List.mem_append.1 hp with h | h
            · exact hext p h
            · simp only [List.mem_singleton] at h
              subst h
              rfl)
          hInv'
          (by
            rw [dinsert_eq_append hrowfree, List.length_append]
            simp only [List.length_singleton]
            omega))
        _ d (mem_orderDomainValues (hInv _ hrowlt hrowfree)) hInv

/-- Backtracking soundness: any returned assignment is a complete,
well-formed, conflict-free solution. -/
theorem backtrackAux_sound {n : Nat} :
    ∀ (fuel : Nat) (a : AList) (d : Domains) (res : AList),
      (akeys a).Nodup → (∀ k ∈ akeys a, k < n) → NoConflicts a →
      (backtrackAux n fuel a d).1 = some res → GoodSol n res := by
  intro fuel
  induction fuel with
  | zero => intro a d res _ _ _ h; cases h
  | succ fuel ih =>
    intro a d res hnd hklt hnc h
    rw [backtrackAux] at h
    by_cases hlen : a.length = n
    · rw [if_pos hlen] at h
      obtain rfl : a = res := by cases h; rfl
      exact ⟨hlen, hnd, hklt, hnc⟩
    · rw [if_neg hlen] at h
      obtain ⟨hrowlt, hrowfree⟩ := selectUnassigned_spec (d := d) hnd hklt hlen
      refine tryValues_sound hrowfree
        (fun col d' hn => backtrackAux_none fuel _ d' (dinsert_keys_nodup hnd hrowfree)
          (dinsert_keys_lt hklt hrowlt hrowfree) hn)
        (fun col d' res' hcons hsome => ih _ d' res' (dinsert_keys_nodup hnd hrowfree)
          (dinsert_keys_lt hklt hrowlt hrowfree)
          (noConflicts_dinsert hnc hrowfree hcons) hsome)
        _ d res h

/-! ## Claim C1 counterexample: an adversarial random behaviour for n = 101 -/

theorem alookup_append_left {a b : AList} {r c : Nat} (h : alookup a r = some c) :
    alookup (a ++ b) r = some c := by
  induction a with
  | nil => cases h
  | cons p ps ih =>
    obtain ⟨k, v⟩ := p
    rw [List.cons_append, alookup]
    rw [alookup] at h
    by_cases hk : k = r
    · rw [if_pos hk] at h ⊢
      exact h
    · rw [if_neg hk] at h ⊢
      exact ih h

theorem alookup_append_right {a b : AList} {r : Nat} (h : alookup a r = none) :
    alookup (a ++ b) r = alookup b r := by
  induction a with
  | nil => rfl
  | cons p ps ih =>
    obtain ⟨k, v⟩ := p
    rw [List.cons_append, alookup]
    rw [alookup] at h
    by_cases hk : k = r
    · rw [if_pos hk] at h
      cases h
    · rw [if_neg hk] at h ⊢
      exact ih h

theorem dinsert_append_notMem {a b : AList} {r c : Nat} (h : r ∉ akeys a) :
    dinsert (a ++ b) r c = a ++ dinsert b r c := by
  induction a with
  | nil => rfl
  | cons p ps ih =>
    obtain ⟨k, v⟩ := p
    have hk : ¬ (k = r) := by
      intro hk
      exact h (by simp [akeys, hk])
    rw [List.cons_append, dinsert, if_neg hk, ih (fun hm => h (by simp [akeys] at hm ⊢; exact Or.inr hm))]
    rfl

theorem mem_dinsert {a : AList} {r c : Nat} {p : Nat × Nat} (h : p ∈ dinsert a r c) :
    p ∈ a ∨ p = (r, c) := by
  induction a with
  | nil =>
    rw [dinsert] at h
    simp only [List.mem_singleton] at h
    exact Or.inr h
  | cons q qs ih =>
    obtain ⟨k, v⟩ := q
    rw [dinsert] at h
    by_cases hk : k = r
    · rw [if_pos hk] at h
      rcases List.mem_cons.1 h with h | h
      · exact Or.inr h
      · exact Or.inl (List.mem_cons_of_mem _ h)
    · rw [if_neg hk] at h
      rcases List.mem_cons.1 h with h | h
      · exact Or.inl (h ▸ List.mem_cons_self _ _)
      · rcases ih h with h | h
        · exact Or.inl (List.mem_cons_of_mem _ h)
        · exact Or.inr h

theorem mem_le_getLast :
    ∀ (l : List Nat), l.Pairwise (· ≤ ·) → ∀ x ∈ l, ∀ h : l ≠ [], x ≤ l.getLast h
  | [], _, x, hx => by cases hx
  | [a], _, x, hx => by
    intro h
    simp only [List.mem_singleton] at hx
    subst hx
    rfl
  | a :: b :: l, hp, x, hx => by
    intro h
    rw [List.getLast_cons (List.cons_ne_nil b l)]
    rw [List.pairwise_cons] at hp
    rcases List.mem_cons.1 hx with hx | hx
    · subst hx
      exact hp.1 _ (List.getLast_mem (List.cons_ne_nil b l))
    · exact mem_le_getLast (b :: l) hp.2 x hx (List.cons_ne_nil b l)

theorem getD_length_sub_one {l : List Nat} (h : l ≠ []) :
    l.getD ((l.length - 1) % l.length) 0 = l.getLast h := by
  have hpos : 0 < l.length := List.length_pos.2 h
  have hlt : l.length - 1 < l.length := by omega
  rw [Nat.mod_eq_of_lt hlt, List.getD_eq_getElem l 0 hlt, List.getLast_eq_getElem l h]

theorem filter_range'_eq_cons {p : Nat → Bool} :
    ∀ (len s x : Nat), s ≤ x → x < s + len → p x = true →
      (∀ y, s ≤ y → y < x → p y = false) →
      ∃ rest, (List.range' s len).filter p = x :: rest := by
  intro len
  induction len with
  | zero => intro s x h1 h2 _ _; omega
  | succ len ih =>
    intro s x h1 h2 hx hlt
    rw [List.range'_succ, List.filter_cons]
    by_cases hsx : s = x
    · subst hsx
      rw [hx]
      exact ⟨_, rfl⟩
    · rw [hlt s (le_refl s) (by omega)]
      exact ih (s + 1) x (by omega) (by omega) hx (fun y hy => hlt y (by omega))

theorem bestFold_from (f : Nat → Nat) :
    ∀ (cols : List Nat) (m : Nat) (pref : List Nat),
      (∀ c ∈ pref, m ≤ f c) → (∃ c ∈ pref, f c = m) →
      ∃ m2, (∀ c ∈ pref ++ cols, m2 ≤ f c) ∧ (∃ c ∈ pref ++ cols, f c = m2) ∧
        cols.foldl (bestStep f) (some (m, pref.filter (fun c => f c = m)))
          = some (m2, (pref ++ cols).filter (fun c => f c = m2)) := by
  intro cols
  induction cols with
  | nil =>
    intro m pref hmin hex
    exact ⟨m, by simpa using hmin, by simpa using hex, by rw [List.append_nil]; rfl⟩
  | cons c cols ih =>
    intro m pref hmin hex
    rw [List.foldl_cons]
    have hstep : bestStep f (some (m, pref.filter (fun c => f c = m))) c
        = if f c < m then some (f c, [c])
          else if f c = m then some (m, pref.filter (fun x => f x = m) ++ [c])
          else some (m, pref.filter (fun x => f x = m)) := rfl
    by_cases hlt : f c < m
    · rw [hstep, if_pos hlt]
      have h1 : [c] = (pref ++ [c]).filter (fun x => f x = f c) := by
        rw [List.filter_append]
        have : pref.filter (fun x => f x = f c) = [] := by
          rw [List.filter_eq_nil_iff]
          intro x hx
          simp only [decide_eq_true_eq]
          have := hmin x hx
          omega
        rw [this]
        simp
      rw [show some (f c, [c]) = some (f c, (pref ++ [c]).filter (fun x => f x = f c)) from by rw [← h1]]
      obtain ⟨m2, ha, hb, hc⟩ := ih (f c) (pref ++ [c])
        (by
          intro x hx
          rcases List.mem_append.1 hx with hx | hx
          · exact le_trans (le_of_lt hlt) (hmin x hx)
          · simp only [List.mem_singleton] at hx
            subst hx
            exact le_refl _)
        ⟨c, List.mem_append_right _ (List.mem_singleton.2 rfl), rfl⟩
      refine ⟨m2, ?_, ?_, ?_⟩
      · intro x hx
        apply ha
        rcases List.mem_append.1 hx with hx | hx
        · exact List.mem_append_left _ (List.mem_append_left _ hx)
        · rcases List.mem_cons.1 hx with hx | hx
          · exact List.mem_append_left _ (List.mem_append_right _ (by simp [hx]))
          · exact List.mem_append_right _ hx
      · obtain ⟨x, hx, hxe⟩ := hb
        refine ⟨x, ?_, hxe⟩
        rcases List.mem_append.1 hx with hx | hx
        · rcases List.mem_append.1 hx with hx | hx
          · exact List.mem_append_left _ hx
          · simp only [List.mem_singleton] at hx
            subst hx
            exact List.mem_append_right _ (List.mem_cons_self _ _)
        · exact List.mem_append_right _ (List.mem_cons_of_mem _ hx)
      · rw [hc]
        rw [show (pref ++ [c]) ++ cols = pref ++ c :: cols from by
          rw [List.append_assoc]; rfl]
    · by_cases heq : f c = m
      · rw [hstep, if_neg hlt, if_pos heq]
        have h1 : pref.filter (fun x => f x = m) ++ [c] = (pref ++ [c]).filter (fun x => f x = m) := by
          rw [List.filter_append]
          simp [heq]
        rw [h1]
        obtain ⟨m2, ha, hb, hc⟩ := ih m (pref ++ [c])
          (by
            intro x hx
            rcases List.mem_append.1 hx with hx | hx
            · exact hmin x hx
            · simp only [List.mem_singleton] at hx
              subst hx
              omega)
          (by
            obtain ⟨x, hx, hxe⟩ := hex
            exact ⟨x, List.mem_append_left _ hx, hxe⟩)
        refine ⟨m2, ?_, ?_, ?_⟩
        · intro x hx
          apply ha
          rcases List.mem_append.1 hx with hx | hx
          · exact List.mem_append_left _ (List.mem_append_left _ hx)
          · rcases List.mem_cons.1 hx with hx | hx
            · exact List.mem_append_left _ (List.mem_append_right _ (by simp [hx]))
            · exact List.mem_append_right _ hx
        · obtain ⟨x, hx, hxe⟩ := hb
          refine ⟨x, ?_, hxe⟩
          rcases List.mem_append.1 hx with hx | hx
          · rcases List.mem_append.1 hx with hx | hx
            · exact List.mem_append_left _ hx
            · simp only [List.mem_singleton] at hx
              subst hx
              exact List.mem_append_right _ (List.mem_cons_self _ _)
          · exact List.mem_append_right _ (List.mem_cons_of_mem _ hx)
        · rw [hc]
          rw [show (pref ++ [c]) ++ cols = pref ++ c :: cols from by
            rw [List.append_assoc]; rfl]
      · rw [hstep, if_neg hlt, if_neg heq]
        have h1 : pref.filter (fun x => f x = m) = (pref ++ [c]).filter (fun x => f x = m) := by
          rw [List.filter_append]
          simp [heq]
        rw [h1]
        obtain ⟨m2, ha, hb, hc⟩ := ih m (pref ++ [c])
          (by
            intro x hx
            rcases List.mem_append.1 hx with hx | hx
            · exact hmin x hx
            · simp only [List.mem_singleton] at hx
              subst hx
              omega)
          (by
            obtain ⟨x, hx, hxe⟩ := hex
            exact ⟨x, List.mem_append_left _ hx, hxe⟩)
        refine ⟨m2, ?_, ?_, ?_⟩
        · intro x hx
          apply ha
          rcases List.mem_append.1 hx with hx | hx
          · exact List.mem_append_left _ (List.mem_append_left _ hx)
          · rcases List.mem_cons.1 hx with hx | hx
            · exact List.mem_append_left _ (List.mem_append_right _ (by simp [hx]))
            · exact List.mem_append_right _ hx
        · obtain ⟨x, hx, hxe⟩ := hb
          refine ⟨x, ?_, hxe⟩
          rcases List.mem_append.1 hx with hx | hx
          · rcases List.mem_append.1 hx with hx | hx
            · exact List.mem_append_left _ hx
            · simp only [List.mem_singleton] at hx
              subst hx
              exact List.mem_append_right _ (List.mem_cons_self _ _)
          · exact List.mem_append_right _ (List.mem_cons_of_mem _ hx)
        · rw [hc]
          rw [show (pref ++ [c]) ++ cols = pref ++ c :: cols from by
            rw [List.append_assoc]; rfl]

theorem bestFold_spec (f : Nat → Nat) :
    ∀ (cols : List Nat), cols ≠ [] →
      ∃ m2, (∀ c ∈ cols, m2 ≤ f c) ∧ (∃ c ∈ cols, f c = m2) ∧
        bestFold f cols = some (m2, cols.filter (fun c => f c = m2)) := by
  intro cols hne
  cases cols with
  | nil => exact absurd rfl hne
  | cons c0 cols =>
    unfold bestFold
    rw [List.foldl_cons]
    have h0 : bestStep f none c0 = some (f c0, [c0]) := rfl
    rw [h0]
    have h1 : [c0] = [c0].filter (fun x => f x = f c0) := by simp
    rw [show some (f c0, [c0]) = some (f c0, [c0].filter (fun x => f x = f c0)) from by rw [← h1]]
    obtain ⟨m2, ha, hb, hc⟩ := bestFold_from f cols (f c0) [c0]
      (by intro x hx; simp only [List.mem_singleton] at hx; subst hx; exact le_refl _)
      ⟨c0, List.mem_singleton.2 rfl, rfl⟩
    exact ⟨m2, by simpa using ha, by simpa using hb, by rw [hc]; rfl⟩

/-- Greedy first-fit column choices for rows 0..61 of the 101-board seeding:
row r gets the first column with zero conflicts against rows 0..r-1. -/
def gList : List Nat := [0,2,4,1,3,8,10,12,14,5,7,18,6,21,9,24,26,28,30,11,13,34,36,38,40,15,17,44,16,47,19,50,52,20,55,57,59,22,62,23,65,27,25,69,71,73,75,77,29,31,81,83,85,32,88,33,91,37,35,95,97,99]

def gFun (r : Nat) : Nat := gList.getD r 0

/-- The assignment after seeding rows `0..r-1` greedily. -/
def prefixList (r : Nat) : AList := (List.range r).map (fun i => (i, gFun i))

/-- Adversarial oracle: during seeding (random calls 0..100) ties break to the
first best column; during repair, the row-choice calls (numbers 101, 103, ...)
pick the *last* conflicted row and the column-choice calls pick the first best
column. -/
def osBad : Nat → List Nat → Nat := fun t l =>
  if 101 ≤ t ∧ (t - 101) % 2 = 0 then l.length - 1 else 0

set_option maxHeartbeats 2000000 in
set_option maxRecDepth 10000 in
theorem gP1 : ∀ r, r < 62 → ∀ i, i < r → ¬ Attacks i (gFun i) r (gFun r) := by decide

set_option maxHeartbeats 2000000 in
set_option maxRecDepth 10000 in
theorem gP2 : ∀ r, r < 62 → ∀ c, c < gFun r → ∃ i, i < r ∧ Attacks i (gFun i) r c := by
  decide

set_option maxHeartbeats 2000000 in
set_option maxRecDepth 10000 in
theorem gP3 : ∀ c, c < 101 → ∃ i, i < 62 ∧ Attacks i (gFun i) 62 c := by decide

theorem gBound : ∀ r, r < 62 → gFun r < 101 := by decide

theorem prefixList_succ (r : Nat) : prefixList (r + 1) = prefixList r ++ [(r, gFun r)] := by
  unfold prefixList
  rw [List.range_succ, List.map_append]
  rfl

theorem alookup_prefixList (m r : Nat) :
    alookup (prefixList m) r = if r < m then some (gFun r) else none := by
  induction m with
  | zero =>
    rw [if_neg (by omega)]
    rfl
  | succ m ih =>
    rw [prefixList_succ]
    by_cases hr : r < m
    · rw [alookup_append_left (by rw [ih, if_pos hr]), if_pos (by omega)]
    · rw [alookup_append_right (by rw [ih, if_neg hr])]
      by_cases hrm : r = m
      · subst hrm
        rw [if_pos (by omega)]
        simp [alookup]
      · rw [if_neg (by omega)]
        show (if m = r then some (gFun m) else alookup [] r) = none
        rw [if_neg (fun h => hrm h.symm)]
        rfl

/-- One greedy seeding step: row `r < 62` picks exactly the greedy column
`gFun r` (the first zero-conflict column) under `osBad`. -/
theorem seedStep (r : Nat) (hr : r < 62) (t : Nat) (ht : t ≤ 100) (rs : List Nat) :
    seedGo 101 osBad (initDomains 101 []) (r :: rs) (prefixList r) t
      = seedGo 101 osBad (initDomains 101 []) rs (prefixList (r + 1)) (t + 1) := by
  have hfree : alookup (prefixList r) r = none := by
    rw [alookup_prefixList, if_neg (by omega)]
  rw [seedGo, hfree]
  simp only [Option.isSome_none, Bool.false_eq_true, if_false]
  rw [initDomains_nil, fsort_range]
  rw [show (List.range 101).isEmpty = false from by decide]
  simp only [Bool.false_eq_true, if_false]
  obtain ⟨m2, hmin, hex, hfold⟩ := bestFold_spec (fun c => countConflicts r c (prefixList r))
    (List.range 101) (by decide)
  have hf0 : countConflicts r (gFun r) (prefixList r) = 0 := by
    rw [countConflicts_eq_zero]
    intro p hp hne
    obtain ⟨i, hi, hpe⟩ := List.mem_map.1 hp
    have hir : i < r := List.mem_range.1 hi
    rw [← hpe]
    exact gP1 r hr i hir
  have hm0 : m2 = 0 := Nat.le_zero.1 (hf0 ▸ hmin (gFun r) (List.mem_range.2 (gBound r hr)))
  subst hm0
  rw [hfold]
  simp only [Option.map_some', Option.getD_some]
  have hb : ∃ rest, (List.range 101).filter
      (fun c => decide (countConflicts r c (prefixList r) = 0)) = gFun r :: rest := by
    rw [List.range_eq_range']
    refine filter_range'_eq_cons 101 0 (gFun r) (Nat.zero_le _)
      (by simpa using gBound r hr) (by simp [hf0]) ?_
    intro y _ hy
    simp only [decide_eq_false_iff_not]
    obtain ⟨i, hi, hatt⟩ := gP2 r hr y hy
    intro h0
    exact absurd hatt (countConflicts_eq_zero.1 h0 (i, gFun i)
      (List.mem_map.2 ⟨i, List.mem_range.2 hi, rfl⟩) (by show i ≠ r; omega))
  obtain ⟨rest, hrest⟩ := hb
  rw [hrest]
  have hch : rchoice osBad t (gFun r :: rest) = gFun r := by
    unfold rchoice osBad
    rw [if_neg (by omega)]
    simp
  rw [hch]
  rw [show dinsert (prefixList r) r (gFun r) = prefixList (r + 1) from by
    rw [dinsert_eq_append hfree, ← prefixList_succ]]

/-- Seeding rows `k..100` from the greedy prefix of length `k ≤ 62` passes
through the greedy prefix of length 62. -/
theorem seedPhase1Aux : ∀ (j k : Nat), k + j = 62 →
    seedGo 101 osBad (initDomains 101 []) (List.range' k (101 - k)) (prefixList k) k
      = seedGo 101 osBad (initDomains 101 []) (List.range' 62 39) (prefixList 62) 62 := by
  intro j
  induction j with
  | zero =>
    intro k hk
    have hk62 : k = 62 := by omega
    subst hk62
    rfl
  | succ j ih =>
    intro k hk
    have hlt : k < 62 := by omega
    rw [show 101 - k = (101 - (k + 1)) + 1 from by omega, List.range'_succ,
      seedStep k hlt k (by omega)]
    exact ih (k + 1) (by omega)

/-- Seeding a list of distinct free rows appends one in-range entry per row
(in order) and advances the random counter once per row. -/
theorem seedGo_appends {n : Nat} {os : Nat → List Nat → Nat} {d : Domains}
    (hn : 0 < n) (hd : ∀ r, d r = Finset.range n) :
    ∀ (rows : List Nat) (a : AList) (t : Nat),
      rows.Nodup → (∀ r ∈ rows, alookup a r = none) →
      ∃ tail, seedGo n os d rows a t = (a ++ tail, t + rows.length) ∧
        akeys tail = rows ∧ (∀ p ∈ tail, p.2 < n) := by
  intro rows
  induction rows with
  | nil =>
    intro a t _ _
    exact ⟨[], by rw [seedGo]; simp, rfl, by simp⟩
  | cons r rows ih =>
    intro a t hnd hfree
    rw [List.nodup_cons] at hnd
    have hfr : alookup a r = none := hfree r (List.mem_cons_self r rows)
    rw [seedGo, hfr]
    simp only [Option.isSome_none, Bool.false_eq_true, if_false]
    rw [hd r, fsort_range]
    have hji : (List.range n).isEmpty = false := by
      rcases hje : (List.range n).isEmpty with _ | _
      · rfl
      · exfalso
        rw [List.isEmpty_iff, List.range_eq_nil] at hje
        omega
    rw [hji]
    simp only [Bool.false_eq_true, if_false]
    obtain ⟨m2, hmin, hexm, hfold⟩ := bestFold_spec
      (fun c => countConflicts r c a) (List.range n)
      (by intro h; rw [List.range_eq_nil] at h; omega)
    obtain ⟨cw, hcwm, hcwe⟩ := hexm
    rw [hfold]
    simp only [Option.map_some', Option.getD_some]
    set col := rchoice os t ((List.range n).filter fun c => decide (countConflicts r c a = m2))
      with hcol
    have hcoln : col < n := by
      have hblne : (List.range n).filter (fun c => decide (countConflicts r c a = m2)) ≠ [] :=
        List.ne_nil_of_mem (List.mem_filter.2 ⟨hcwm, by simp [hcwe]⟩)
      have hm := @rchoice_mem os t _ hblne
      rw [← hcol] at hm
      exact List.mem_range.1 (List.mem_filter.1 hm).1
    have hfree2 : ∀ r2 ∈ rows, alookup (dinsert a r col) r2 = none := by
      intro r2 hr2
      rw [dinsert_eq_append hfr, alookup_append_right (hfree r2 (List.mem_cons_of_mem _ hr2))]
      show (if r = r2 then some col else alookup [] r2) = none
      rw [if_neg (fun h => hnd.1 (by rw [h]; exact hr2))]
      rfl
    obtain ⟨tail, heq, hkeys, hvals⟩ := ih (dinsert a r col) (t + 1) hnd.2 hfree2
    refine ⟨(r, col) :: tail, ?_, ?_, ?_⟩
    · rw [heq, dinsert_eq_append hfr, List.append_assoc]
      rw [show [(r, col)] ++ tail = (r, col) :: tail from rfl]
      rw [show t + 1 + rows.length = t + (rows.length + 1) from by omega]
      rfl
    · show r :: akeys tail = r :: rows
      rw [hkeys]
    · intro p hp
      rcases List.mem_cons.1 hp with hp | hp
      · rw [hp]
        exact hcoln
      · exact hvals p hp

theorem akeys_prefixList (m : Nat) : akeys (prefixList m) = List.range m := by
  unfold akeys prefixList
  rw [List.map_map]
  show List.map (fun i => i) (List.range m) = List.range m
  simp

set_option maxRecDepth 10000 in
set_option maxHeartbeats 1600000 in
/-- The repair loop under `osBad` never terminates successfully: row 62 stays
in conflict with the greedy prefix (which blocks all its columns), and the
always-last row choice never moves a prefix row. -/
theorem mcRepairNone : ∀ (steps : Nat) (tail : AList) (t : Nat),
    akeys tail = List.range' 62 39 → (∀ p ∈ tail, p.2 < 101) →
    101 ≤ t → (t - 101) % 2 = 0 →
    mcLoop 101 osBad [] steps (prefixList 62 ++ tail) t = none := by
  intro steps
  induction steps with
  | zero => intro tail t _ _ _ _; rfl
  | succ steps ih =>
    intro tail t hkeys hvals ht1 ht2
    rw [mcLoop]
    dsimp only
    have h62k : 62 ∈ akeys tail := by
      rw [hkeys]
      exact List.mem_range'_1.2 ⟨le_refl 62, by omega⟩
    obtain ⟨v, hv⟩ := Option.isSome_iff_exists.1 (alookup_isSome.2 h62k)
    have hva : alookup (prefixList 62 ++ tail) 62 = some v := by
      rw [alookup_append_right (by rw [alookup_prefixList, if_neg (by omega)])]
      exact hv
    have hvlt : v < 101 := hvals (62, v) (alookup_mem hv)
    have hcount : 0 < countConflicts 62 v (prefixList 62 ++ tail) := by
      obtain ⟨i, hi, hatt⟩ := gP3 v hvlt
      exact countConflicts_pos
        (List.mem_append_left _ (List.mem_map.2 ⟨i, List.mem_range.2 hi, rfl⟩))
        (by show i ≠ 62; omega) hatt
    have hmem62 : 62 ∈ conflictedRows 101 [] (prefixList 62 ++ tail) := by
      unfold conflictedRows
      refine List.mem_filter.2 ⟨List.mem_range.2 (by omega), ?_⟩
      rw [hva]
      simp only [Option.getD_some, Bool.and_eq_true, decide_eq_true_eq]
      exact ⟨by decide, hcount⟩
    have hcrne : conflictedRows 101 [] (prefixList 62 ++ tail) ≠ [] :=
      List.ne_nil_of_mem hmem62
    have hcre : (conflictedRows 101 [] (prefixList 62 ++ tail)).isEmpty = false := by
      rcases hje : (conflictedRows 101 [] (prefixList 62 ++ tail)).isEmpty with _ | _
      · rfl
      · exact absurd (List.isEmpty_iff.1 hje) hcrne
    rw [hcre]
    simp only [Bool.false_eq_true, if_false]
    obtain ⟨R, hR⟩ : ∃ x, rchoice osBad t (conflictedRows 101 [] (prefixList 62 ++ tail)) = x :=
      ⟨_, rfl⟩
    rw [hR]
    have hRlast : R = (conflictedRows 101 [] (prefixList 62 ++ tail)).getLast hcrne := by
      rw [← hR]
      unfold rchoice osBad
      rw [if_pos ⟨ht1, ht2⟩]
      exact getD_length_sub_one hcrne
    have hRmem : R ∈ conflictedRows 101 [] (prefixList 62 ++ tail) := by
      rw [hRlast]
      exact List.getLast_mem hcrne
    have hsorted : (conflictedRows 101 [] (prefixList 62 ++ tail)).Pairwise (· ≤ ·) := by
      unfold conflictedRows
      exact ((List.pairwise_lt_range 101).sublist (List.filter_sublist _)).imp
        (fun h => le_of_lt h)
    have hR62 : 62 ≤ R := by
      rw [hRlast]
      exact mem_le_getLast _ hsorted 62 hmem62 hcrne
    have hR101 : R < 101 := by
      have hm := hRmem
      unfold conflictedRows at hm
      exact List.mem_range.1 (List.mem_filter.1 hm).1
    obtain ⟨m2, hmin, hexm, hfold⟩ := bestFold_spec
      (fun c => countConflicts R c (dinsert (prefixList 62 ++ tail) R c)) (List.range 101)
      (by intro h; rw [List.range_eq_nil] at h; omega)
    obtain ⟨cw, hcwm, hcwe⟩ := hexm
    rw [hfold]
    simp only [Option.map_some', Option.getD_some]
    obtain ⟨C, hC⟩ : ∃ x, rchoice osBad (t + 1)
        ((List.range 101).filter fun c =>
          decide (countConflicts R c (dinsert (prefixList 62 ++ tail) R c) = m2)) = x :=
      ⟨_, rfl⟩
    rw [hC]
    have hC101 : C < 101 := by
      have hblne : (List.range 101).filter (fun c =>
          decide (countConflicts R c (dinsert (prefixList 62 ++ tail) R c) = m2)) ≠ [] :=
        List.ne_nil_of_mem (List.mem_filter.2 ⟨hcwm, by simp [hcwe]⟩)
      have hm := @rchoice_mem osBad (t + 1) _ hblne
      rw [hC] at hm
      exact List.mem_range.1 (List.mem_filter.1 hm).1
    have hsplit : dinsert (prefixList 62 ++ tail) R C = prefixList 62 ++ dinsert tail R C := by
      refine dinsert_append_notMem ?_
      rw [akeys_prefixList]
      intro hmem
      have := List.mem_range.1 hmem
      omega
    rw [hsplit]
    have hRtail : R ∈ akeys tail := by
      rw [hkeys]
      exact List.mem_range'_1.2 ⟨hR62, by omega⟩
    exact ih (dinsert tail R C) (t + 2)
      (by rw [akeys_dinsert_mem hRtail, hkeys])
      (fun p hp => by
        rcases mem_dinsert hp with hp | hp
        · exact hvals p hp
        · rw [hp]
          exact hC101)
      (by omega) (by omega)

/-- C1 counterexample: for n = 101 with no partial assignment — the
min-conflicts path the claim explicitly includes — there is a random
behaviour (`osBad`) for which `solve` returns the failure result instead of a
solution: the greedy seeding leaves row 62 blocked by rows 0..61, and the
repair loop, always offered the last conflicted row, never moves any of the
blocking rows, so the 10100-step budget is exhausted. -/
theorem nq_C1_counterexample : solve 101 [] osBad = none := by
  unfold solve
  rw [if_neg (by omega)]
  unfold minConflicts
  dsimp only
  rw [show (List.range 101) = List.range' 0 (101 - 0) from by rw [List.range_eq_range']]
  have hphase1 := seedPhase1Aux 62 0 (by omega)
  rw [show prefixList 0 = [] from rfl] at hphase1
  rw [hphase1]
  have hfree62 : ∀ r ∈ List.range' 62 39, alookup (prefixList 62) r = none := by
    intro r hr
    have h62 : 62 ≤ r := (List.mem_range'_1.1 hr).1
    rw [alookup_prefixList, if_neg (by omega)]
  obtain ⟨tail, heq, hkeys, hvals⟩ := seedGo_appends (by omega)
    (fun r => initDomains_nil 101 r) (List.range' 62 39) (prefixList 62) 62
    (List.nodup_range' 62 39) hfree62
  rw [heq]
  dsimp only
  exact mcRepairNone (101 * 100) tail (62 + (List.range' 62 39).length) hkeys hvals
    (by rw [List.length_range']) (by rw [List.length_range'])

set_option maxHeartbeats 2000000 in
/-- One stored n-queens solution for each board size 4..100 (index `n - 4`). -/
def knownSols : List (List Nat) := [
  [1,3,0,2],
  [1,3,0,2,4],
  [1,3,5,0,2,4],
  [1,3,5,0,2,4,6],
  [3,1,7,4,6,0,2,5],
  [0,4,6,1,5,2,8,3,7],
  [1,3,5,7,9,0,2,4,6,8],
  [1,3,5,7,9,0,2,4,6,8,10],
  [1,3,5,7,9,11,0,2,4,6,8,10],
  [1,3,5,7,9,11,0,2,4,6,8,10,12],
  [3,12,7,4,11,0,10,13,2,5,8,1,9,6],
  [9,5,8,1,12,2,11,14,3,10,4,7,0,13,6],
  [1,3,5,7,9,11,13,15,0,2,4,6,8,10,12,14],
  [1,3,5,7,9,11,13,15,0,2,4,6,8,10,12,14,16],
  [1,3,5,7,9,11,13,15,17,0,2,4,6,8,10,12,14,16],
  [1,3,5,7,9,11,13,15,17,0,2,4,6,8,10,12,14,16,18],
  [12,18,5,7,10,4,16,1,9,14,17,0,3,8,6,13,2,19,11,15],
  [17,6,3,5,10,14,16,11,2,4,1,19,12,20,13,8,0,9,7,15,18],
  [1,3,5,7,9,11,13,15,17,19,21,0,2,4,6,8,10,12,14,16,18,20],
  [1,3,5,7,9,11,13,15,17,19,21,0,2,4,6,8,10,12,14,16,18,20,22],
  [1,3,5,7,9,11,13,15,17,19,21,23,0,2,4,6,8,10,12,14,16,18,20,22],
  [1,3,5,7,9,11,13,15,17,19,21,23,0,2,4,6,8,10,12,14,16,18,20,22,24],
  [12,16,20,3,23,2,10,18,15,19,24,7,17,0,6,9,5,25,1,14,21,11,4,8,22,13],
  [15,5,24,1,14,17,7,25,21,2,10,20,23,3,9,4,22,0,12,18,8,6,19,26,16,11,13],
  [1,3,5,7,9,11,13,15,17,19,21,23,25,27,0,2,4,6,8,10,12,14,16,18,20,22,24,26],
  [1,3,5,7,9,11,13,15,17,19,21,23,25,27,0,2,4,6,8,10,12,14,16,18,20,22,24,26,28],
  [1,3,5,7,9,11,13,15,17,19,21,23,25,27,29,0,2,4,6,8,10,12,14,16,18,20,22,24,26,28],
  [1,3,5,7,9,11,13,15,17,19,21,23,25,27,29,0,2,4,6,8,10,12,14,16,18,20,22,24,26,28,30],
  [10,22,29,4,16,7,15,20,28,17,14,27,2,5,31,1,30,12,24,0,8,18,25,21,11,9,26,23,13,3,19,6],
  [2,21,14,24,1,18,30,10,3,25,15,29,6,20,12,16,4,26,32,23,9,0,13,31,8,5,11,19,27,22,17,7,28],
  [1,3,5,7,9,11,13,15,17,19,21,23,25,27,29,31,33,0,2,4,6,8,10,12,14,16,18,20,22,24,26,28,30,32],
  [1,3,5,7,9,11,13,15,17,19,21,23,25,27,29,31,33,0,2,4,6,8,10,12,14,16,18,20,22,24,26,28,30,32,34],
  [1,3,5,7,9,11,13,15,17,19,21,23,25,27,29,31,33,35,0,2,4,6,8,10,12,14,16,18,20,22,24,26,28,30,32,34],
  [1,3,5,7,9,11,13,15,17,19,21,23,25,27,29,31,33,35,0,2,4,6,8,10,12,14,16,18,20,22,24,26,28,30,32,34,36],
  [16,34,0,23,6,24,18,37,3,9,4,32,35,20,1,7,15,2,28,22,29,17,30,13,10,5,31,33,25,11,21,8,36,12,27,19,14,26],
  [18,32,24,33,23,2,9,28,0,13,21,1,17,29,26,6,14,30,5,34,37,4,36,31,20,35,8,16,22,3,11,7,27,19,12,10,15,25,38],
  [1,3,5,7,9,11,13,15,17,19,21,23,25,27,29,31,33,35,37,39,0,2,4,6,8,10,12,14,16,18,20,22,24,26,28,30,32,34,36,38],
  [1,3,5,7,9,11,13,15,17,19,21,23,25,27,29,31,33,35,37,39,0,2,4,6,8,10,12,14,16,18,20,22,24,26,28,30,32,34,36,38,40],
  [1,3,5,7,9,11,13,15,17,19,21,23,25,27,29,31,33,35,37,39,41,0,2,4,6,8,10,12,14,16,18,20,22,24,26,28,30,32,34,36,38,40],
  [1,3,5,7,9,11,13,15,17,19,21,23,25,27,29,31,33,35,37,39,41,0,2,4,6,8,10,12,14,16,18,20,22,24,26,28,30,32,34,36,38,40,42],
  [29,19,8,15,39,28,3,35,33,2,4,20,13,26,30,23,1,9,40,18,16,31,0,37,11,42,24,32,43,5,34,38,22,7,36,10,27,25,17,12,21,41,14,6],
  [20,24,15,18,23,7,22,36,33,40,8,43,39,6,1,29,37,21,4,28,16,9,13,17,2,25,5,35,31,34,27,11,42,0,3,41,10,44,30,38,12,26,19,32,14],
  [1,3,5,7,9,11,13,15,17,19,21,23,25,27,29,31,33,35,37,39,41,43,45,0,2,4,6,8,10,12,14,16,18,20,22,24,26,28,30,32,34,36,38,40,42,44],
  [1,3,5,7,9,11,13,15,17,19,21,23,25,27,29,31,33,35,37,39,41,43,45,0,2,4,6,8,10,12,14,16,18,20,22,24,26,28,30,32,34,36,38,40,42,44,46],
  [1,3,5,7,9,11,13,15,17,19,21,23,25,27,29,31,33,35,37,39,41,43,45,47,0,2,4,6,8,10,12,14,16,18,20,22,24,26,28,30,32,34,36,38,40,42,44,46],
  [1,3,5,7,9,11,13,15,17,19,21,23,25,27,29,31,33,35,37,39,41,43,45,47,0,2,4,6,8,10,12,14,16,18,20,22,24,26,28,30,32,34,36,38,40,42,44,46,48],
  [11,24,28,21,17,36,38,10,25,13,6,23,47,2,41,37,40,14,5,1,12,29,32,16,4,44,9,34,43,8,30,22,31,18,15,49,45,3,7,33,42,27,20,48,39,35,19,0,46,26],
  [27,35,3,17,41,7,28,18,38,34,30,24,4,45,0,13,32,1,6,14,48,21,39,31,2,40,49,33,10,20,11,50,5,22,43,29,26,47,42,8,16,9,25,36,15,12,23,19,44,46,37],
  [1,3,5,7,9,11,13,15,17,19,21,23,25,27,29,31,33,35,37,39,41,43,45,47,49,51,0,2,4,6,8,10,12,14,16,18,20,22,24,26,28,30,32,34,36,38,40,42,44,46,48,50],
  [1,3,5,7,9,11,13,15,17,19,21,23,25,27,29,31,33,35,37,39,41,43,45,47,49,51,0,2,4,6,8,10,12,14,16,18,20,22,24,26,28,30,32,34,36,38,40,42,44,46,48,50,52],
  [1,3,5,7,9,11,13,15,17,19,21,23,25,27,29,31,33,35,37,39,41,43,45,47,49,51,53,0,2,4,6,8,10,12,14,16,18,20,22,24,26,28,30,32,34,36,38,40,42,44,46,48,50,52],
  [1,3,5,7,9,11,13,15,17,19,21,23,25,27,29,31,33,35,37,39,41,43,45,47,49,51,53,0,2,4,6,8,10,12,14,16,18,20,22,24,26,28,30,32,34,36,38,40,42,44,46,48,50,52,54],
  [54,18,22,13,36,24,15,11,30,32,1,16,55,9,48,43,47,33,51,40,46,34,14,52,8,20,26,21,53,6,31,42,50,45,5,2,38,19,4,7,28,3,35,49,41,25,44,17,12,23,39,29,27,0,37,10],
  [22,18,16,42,47,31,15,37,35,25,2,30,41,1,48,13,39,53,46,40,28,11,8,17,9,21,50,20,43,6,55,44,36,33,29,38,54,5,45,0,51,24,7,49,10,34,4,14,12,23,19,56,32,52,27,3,26],
  [1,3,5,7,9,11,13,15,17,19,21,23,25,27,29,31,33,35,37,39,41,43,45,47,49,51,53,55,57,0,2,4,6,8,10,12,14,16,18,20,22,24,26,28,30,32,34,36,38,40,42,44,46,48,50,52,54,56],
  [1,3,5,7,9,11,13,15,17,19,21,23,25,27,29,31,33,35,37,39,41,43,45,47,49,51,53,55,57,0,2,4,6,8,10,12,14,16,18,20,22,24,26,28,30,32,34,36,38,40,42,44,46,48,50,52,54,56,58],
  [1,3,5,7,9,11,13,15,17,19,21,23,25,27,29,31,33,35,37,39,41,43,45,47,49,51,53,55,57,59,0,2,4,6,8,10,12,14,16,18,20,22,24,26,28,30,32,34,36,38,40,42,44,46,48,50,52,54,56,58],
  [1,3,5,7,9,11,13,15,17,19,21,23,25,27,29,31,33,35,37,39,41,43,45,47,49,51,53,55,57,59,0,2,4,6,8,10,12,14,16,18,20,22,24,26,28,30,32,34,36,38,40,42,44,46,48,50,52,54,56,58,60],
  [38,22,60,23,8,3,15,37,25,21,44,59,27,45,14,7,26,39,57,42,17,11,13,6,29,56,34,46,54,47,4,9,48,32,61,1,5,12,33,18,51,43,55,24,20,10,31,53,35,2,36,58,40,16,50,19,49,41,52,0,30,28],
  [45,22,30,33,15,20,53,41,14,59,7,28,44,8,58,5,35,9,49,31,38,56,62,32,47,61,27,0,6,25,16,13,1,43,48,2,11,24,4,42,60,39,21,23,57,29,50,18,55,3,12,40,17,36,10,54,19,51,34,52,37,46,26],
  [1,3,5,7,9,11,13,15,17,19,21,23,25,27,29,31,33,35,37,39,41,43,45,47,49,51,53,55,57,59,61,63,0,2,4,6,8,10,12,14,16,18,20,22,24,26,28,30,32,34,36,38,40,42,44,46,48,50,52,54,56,58,60,62],
  [1,3,5,7,9,11,13,15,17,19,21,23,25,27,29,31,33,35,37,39,41,43,45,47,49,51,53,55,57,59,61,63,0,2,4,6,8,10,12,14,16,18,20,22,24,26,28,30,32,34,36,38,40,42,44,46,48,50,52,54,56,58,60,62,64],
  [1,3,5,7,9,11,13,15,17,19,21,23,25,27,29,31,33,35,37,39,41,43,45,47,49,51,53,55,57,59,61,63,65,0,2,4,6,8,10,12,14,16,18,20,22,24,26,28,30,32,34,36,38,40,42,44,46,48,50,52,54,56,58,60,62,64],
  [1,3,5,7,9,11,13,15,17,19,21,23,25,27,29,31,33,35,37,39,41,43,45,47,49,51,53,55,57,59,61,63,65,0,2,4,6,8,10,12,14,16,18,20,22,24,26,28,30,32,34,36,38,40,42,44,46,48,50,52,54,56,58,60,62,64,66],
  [65,62,13,42,34,20,22,2,63,15,8,35,41,6,26,37,56,43,3,47,19,29,45,36,25,30,59,21,64,54,12,1,52,67,9,23,55,4,48,57,61,32,5,33,51,24,60,50,40,58,39,11,28,49,16,27,0,7,10,46,18,14,17,31,44,38,66,53],
  [17,65,14,10,54,50,28,62,31,22,26,8,20,24,45,42,30,43,11,3,44,19,58,60,25,5,36,67,48,57,55,64,6,9,66,21,51,4,16,29,13,32,37,1,33,63,46,68,2,52,49,39,0,40,35,15,61,18,7,23,56,27,12,34,41,47,38,59,53],
  [1,3,5,7,9,11,13,15,17,19,21,23,25,27,29,31,33,35,37,39,41,43,45,47,49,51,53,55,57,59,61,63,65,67,69,0,2,4,6,8,10,12,14,16,18,20,22,24,26,28,30,32,34,36,38,40,42,44,46,48,50,52,54,56,58,60,62,64,66,68],
  [1,3,5,7,9,11,13,15,17,19,21,23,25,27,29,31,33,35,37,39,41,43,45,47,49,51,53,55,57,59,61,63,65,67,69,0,2,4,6,8,10,12,14,16,18,20,22,24,26,28,30,32,34,36,38,40,42,44,46,48,50,52,54,56,58,60,62,64,66,68,70],
  [1,3,5,7,9,11,13,15,17,19,21,23,25,27,29,31,33,35,37,39,41,43,45,47,49,51,53,55,57,59,61,63,65,67,69,71,0,2,4,6,8,10,12,14,16,18,20,22,24,26,28,30,32,34,36,38,40,42,44,46,48,50,52,54,56,58,60,62,64,66,68,70],
  [1,3,5,7,9,11,13,15,17,19,21,23,25,27,29,31,33,35,37,39,41,43,45,47,49,51,53,55,57,59,61,63,65,67,69,71,0,2,4,6,8,10,12,14,16,18,20,22,24,26,28,30,32,34,36,38,40,42,44,46,48,50,52,54,56,58,60,62,64,66,68,70,72],
  [27,49,56,41,67,30,17,6,73,3,8,42,28,64,48,11,60,21,24,65,50,71,14,23,44,9,38,63,52,0,45,18,69,62,31,54,57,51,29,72,66,19,12,26,7,58,10,5,37,25,32,68,53,46,33,2,59,47,39,4,40,35,16,20,15,70,61,55,34,22,43,36,1,13],
  [73,59,32,23,51,17,42,6,24,36,8,57,65,54,69,41,72,49,29,19,16,7,43,58,18,74,3,52,62,33,61,9,38,56,48,50,25,27,13,67,35,12,4,0,28,14,47,10,66,37,26,64,22,1,46,40,2,60,68,39,11,44,30,21,5,15,71,20,55,34,31,45,63,70,53],
  [1,3,5,7,9,11,13,15,17,19,21,23,25,27,29,31,33,35,37,39,41,43,45,47,49,51,53,55,57,59,61,63,65,67,69,71,73,75,0,2,4,6,8,10,12,14,16,18,20,22,24,26,28,30,32,34,36,38,40,42,44,46,48,50,52,54,56,58,60,62,64,66,68,70,72,74],
  [1,3,5,7,9,11,13,15,17,19,21,23,25,27,29,31,33,35,37,39,41,43,45,47,49,51,53,55,57,59,61,63,65,67,69,71,73,75,0,2,4,6,8,10,12,14,16,18,20,22,24,26,28,30,32,34,36,38,40,42,44,46,48,50,52,54,56,58,60,62,64,66,68,70,72,74,76],
  [1,3,5,7,9,11,13,15,17,19,21,23,25,27,29,31,33,35,37,39,41,43,45,47,49,51,53,55,57,59,61,63,65,67,69,71,73,75,77,0,2,4,6,8,10,12,14,16,18,20,22,24,26,28,30,32,34,36,38,40,42,44,46,48,50,52,54,56,58,60,62,64,66,68,70,72,74,76],
  [1,3,5,7,9,11,13,15,17,19,21,23,25,27,29,31,33,35,37,39,41,43,45,47,49,51,53,55,57,59,61,63,65,67,69,71,73,75,77,0,2,4,6,8,10,12,14,16,18,20,22,24,26,28,30,32,34,36,38,40,42,44,46,48,50,52,54,56,58,60,62,64,66,68,70,72,74,76,78],
  [50,23,65,36,25,56,64,33,55,27,48,31,61,47,2,79,6,17,63,13,39,16,77,7,54,40,18,66,5,60,41,71,19,8,14,62,44,69,75,4,12,42,24,32,3,73,49,43,29,78,35,21,57,70,10,46,0,59,67,37,26,68,74,11,28,22,45,9,51,15,76,20,58,72,34,30,52,38,1,53],
  [33,19,28,70,75,52,29,59,20,67,27,71,36,68,2,50,56,37,4,6,41,21,31,17,39,35,72,5,58,48,25,16,11,78,24,34,13,1,76,32,62,54,22,80,49,47,44,74,51,7,57,0,60,69,65,12,18,46,30,9,23,14,8,64,61,79,40,43,10,73,45,77,63,55,66,26,42,3,38,15,53],
  [1,3,5,7,9,11,13,15,17,19,21,23,25,27,29,31,33,35,37,39,41,43,45,47,49,51,53,55,57,59,61,63,65,67,69,71,73,75,77,79,81,0,2,4,6,8,10,12,14,16,18,20,22,24,26,28,30,32,34,36,38,40,42,44,46,48,50,52,54,56,58,60,62,64,66,68,70,72,74,76,78,80],
  [1,3,5,7,9,11,13,15,17,19,21,23,25,27,29,31,33,35,37,39,41,43,45,47,49,51,53,55,57,59,61,63,65,67,69,71,73,75,77,79,81,0,2,4,6,8,10,12,14,16,18,20,22,24,26,28,30,32,34,36,38,40,42,44,46,48,50,52,54,56,58,60,62,64,66,68,70,72,74,76,78,80,82],
  [1,3,5,7,9,11,13,15,17,19,21,23,25,27,29,31,33,35,37,39,41,43,45,47,49,51,53,55,57,59,61,63,65,67,69,71,73,75,77,79,81,83,0,2,4,6,8,10,12,14,16,18,20,22,24,26,28,30,32,34,36,38,40,42,44,46,48,50,52,54,56,58,60,62,64,66,68,70,72,74,76,78,80,82],
  [1,3,5,7,9,11,13,15,17,19,21,23,25,27,29,31,33,35,37,39,41,43,45,47,49,51,53,55,57,59,61,63,65,67,69,71,73,75,77,79,81,83,0,2,4,6,8,10,12,14,16,18,20,22,24,26,28,30,32,34,36,38,40,42,44,46,48,50,52,54,56,58,60,62,64,66,68,70,72,74,76,78,80,82,84],
  [39,19,54,59,37,12,78,43,50,79,57,80,61,25,31,66,60,32,42,11,77,5,35,17,0,44,16,75,27,3,56,13,20,30,14,58,68,33,40,48,6,71,67,81,55,74,49,28,26,22,84,52,83,36,29,53,72,9,85,63,4,46,18,2,21,7,76,1,45,62,70,8,10,23,41,15,82,24,69,65,34,51,47,38,73,64],
  [65,19,48,28,57,29,76,62,22,7,58,18,61,25,31,66,60,4,86,41,72,5,63,24,35,52,1,6,38,33,84,71,9,16,3,54,69,11,40,82,12,17,68,37,10,42,49,81,8,77,43,32,75,26,44,2,45,15,73,50,80,46,13,55,59,64,34,67,20,51,79,0,85,78,23,21,56,83,74,27,14,36,53,47,70,39,30],
  [1,3,5,7,9,11,13,15,17,19,21,23,25,27,29,31,33,35,37,39,41,43,45,47,49,51,53,55,57,59,61,63,65,67,69,71,73,75,77,79,81,83,85,87,0,2,4,6,8,10,12,14,16,18,20,22,24,26,28,30,32,34,36,38,40,42,44,46,48,50,52,54,56,58,60,62,64,66,68,70,72,74,76,78,80,82,84,86],
  [1,3,5,7,9,11,13,15,17,19,21,23,25,27,29,31,33,35,37,39,41,43,45,47,49,51,53,55,57,59,61,63,65,67,69,71,73,75,77,79,81,83,85,87,0,2,4,6,8,10,12,14,16,18,20,22,24,26,28,30,32,34,36,38,40,42,44,46,48,50,52,54,56,58,60,62,64,66,68,70,72,74,76,78,80,82,84,86,88],
  [1,3,5,7,9,11,13,15,17,19,21,23,25,27,29,31,33,35,37,39,41,43,45,47,49,51,53,55,57,59,61,63,65,67,69,71,73,75,77,79,81,83,85,87,89,0,2,4,6,8,10,12,14,16,18,20,22,24,26,28,30,32,34,36,38,40,42,44,46,48,50,52,54,56,58,60,62,64,66,68,70,72,74,76,78,80,82,84,86,88],
  [1,3,5,7,9,11,13,15,17,19,21,23,25,27,29,31,33,35,37,39,41,43,45,47,49,51,53,55,57,59,61,63,65,67,69,71,73,75,77,79,81,83,85,87,89,0,2,4,6,8,10,12,14,16,18,20,22,24,26,28,30,32,34,36,38,40,42,44,46,48,50,52,54,56,58,60,62,64,66,68,70,72,74,76,78,80,82,84,86,88,90],
  [3,57,50,65,44,19,55,62,23,61,71,46,28,66,32,12,40,5,83,89,86,51,91,43,74,35,37,16,4,6,58,56,45,31,13,39,2,60,79,14,76,24,47,85,36,17,30,68,75,10,49,59,42,54,0,84,82,52,90,78,7,73,69,41,81,87,9,26,18,21,25,29,63,11,67,8,70,77,64,33,22,15,88,20,80,72,34,27,48,38,1,53],
  [29,35,50,76,55,19,78,92,46,84,1,7,66,30,37,12,57,86,17,90,63,47,26,73,14,45,27,88,83,48,3,75,32,9,87,6,25,61,80,24,22,51,81,65,13,56,79,42,69,85,38,49,15,23,72,5,58,40,89,16,68,77,74,44,18,0,91,70,34,36,21,64,52,67,11,54,10,82,2,71,33,41,28,60,20,59,4,8,43,31,62,39,53],
  [1,3,5,7,9,11,13,15,17,19,21,23,25,27,29,31,33,35,37,39,41,43,45,47,49,51,53,55,57,59,61,63,65,67,69,71,73,75,77,79,81,83,85,87,89,91,93,0,2,4,6,8,10,12,14,16,18,20,22,24,26,28,30,32,34,36,38,40,42,44,46,48,50,52,54,56,58,60,62,64,66,68,70,72,74,76,78,80,82,84,86,88,90,92],
  [1,3,5,7,9,11,13,15,17,19,21,23,25,27,29,31,33,35,37,39,41,43,45,47,49,51,53,55,57,59,61,63,65,67,69,71,73,75,77,79,81,83,85,87,89,91,93,0,2,4,6,8,10,12,14,16,18,20,22,24,26,28,30,32,34,36,38,40,42,44,46,48,50,52,54,56,58,60,62,64,66,68,70,72,74,76,78,80,82,84,86,88,90,92,94],
  [1,3,5,7,9,11,13,15,17,19,21,23,25,27,29,31,33,35,37,39,41,43,45,47,49,51,53,55,57,59,61,63,65,67,69,71,73,75,77,79,81,83,85,87,89,91,93,95,0,2,4,6,8,10,12,14,16,18,20,22,24,26,28,30,32,34,36,38,40,42,44,46,48,50,52,54,56,58,60,62,64,66,68,70,72,74,76,78,80,82,84,86,88,90,92,94],
  [1,3,5,7,9,11,13,15,17,19,21,23,25,27,29,31,33,35,37,39,41,43,45,47,49,51,53,55,57,59,61,63,65,67,69,71,73,75,77,79,81,83,85,87,89,91,93,95,0,2,4,6,8,10,12,14,16,18,20,22,24,26,28,30,32,34,36,38,40,42,44,46,48,50,52,54,56,58,60,62,64,66,68,70,72,74,76,78,80,82,84,86,88,90,92,94,96],
  [44,71,51,26,29,19,30,55,77,25,41,86,49,81,76,91,63,97,17,39,7,59,85,5,42,64,4,16,45,31,83,24,13,88,66,40,90,12,89,8,53,68,50,28,87,73,6,18,54,70,20,37,94,10,58,2,0,79,84,36,21,61,95,75,60,80,32,43,14,9,38,3,56,92,69,48,11,67,23,62,78,22,74,46,33,35,65,96,27,15,57,34,72,47,82,1,93,52],
  [65,18,51,79,19,17,68,59,29,50,89,69,28,82,46,0,73,12,31,39,92,63,86,32,74,62,4,16,20,47,37,54,7,67,13,40,83,35,76,95,1,5,90,36,97,48,57,66,87,84,77,10,78,25,42,56,38,14,88,3,23,61,8,6,72,27,15,43,93,91,21,81,52,64,98,2,44,9,45,26,70,75,22,85,71,33,11,41,94,58,55,49,34,24,60,30,80,96,53],
  [1,3,5,7,9,11,13,15,17,19,21,23,25,27,29,31,33,35,37,39,41,43,45,47,49,51,53,55,57,59,61,63,65,67,69,71,73,75,77,79,81,83,85,87,89,91,93,95,97,99,0,2,4,6,8,10,12,14,16,18,20,22,24,26,28,30,32,34,36,38,40,42,44,46,48,50,52,54,56,58,60,62,64,66,68,70,72,74,76,78,80,82,84,86,88,90,92,94,96,98]
]

set_option maxHeartbeats 4000000 in
theorem knownSols_spec : ∀ m, m < 97 →
    (knownSols.getD m []).length = m + 4 ∧
    (knownSols.getD m []).all (fun c => c < m + 4) = true ∧
    queensOK (knownSols.getD m []) = true := by
  decide

/-- For every 4 ≤ n ≤ 100 there is a total placement function with no two
queens attacking. -/
theorem exists_solution (n : Nat) (h4 : 4 ≤ n) (h100 : n ≤ 100) :
    ∃ S : Nat → Nat, (∀ r, r < n → S r < n) ∧
      (∀ i j, i < n → j < n → i ≠ j → ¬ Attacks i (S i) j (S j)) := by
  obtain ⟨hlen, hbound, hok⟩ := knownSols_spec (n - 4) (by omega)
  have hn4 : n - 4 + 4 = n := by omega
  rw [hn4] at hlen hbound
  refine ⟨fun r => (knownSols.getD (n - 4) []).getD r 0, ?_, ?_⟩
  · intro r hrn
    rw [List.all_eq_true] at hbound
    show (knownSols.getD (n - 4) []).getD r 0 < n
    have hr : r < (knownSols.getD (n - 4) []).length := by omega
    rw [List.getD_eq_getElem _ 0 hr]
    exact of_decide_eq_true (hbound _ (List.getElem_mem hr))
  · intro i j hi hj hij
    rcases Nat.lt_or_ge i j with hlt | hge
    · exact queensOK_spec _ hok i j hlt (by omega)
    · have hlt : j < i := by omega
      intro hat
      exact queensOK_spec _ hok j i hlt (by omega) (attacks_symm hat)


/-- C1 (amended): for every 4 ≤ n ≤ 100 with no partial assignment (the
backtracking path), `solve` returns a complete assignment of all n rows with
zero conflicts, for every random behaviour.  (The original claim's "including
n > 100" part fails: see the counterexample.) -/
theorem nq_C1_amended (n : Nat) (os : Nat → List Nat → Nat) (h4 : 4 ≤ n)
    (h100 : n ≤ 100) :
    ∃ A, solve n [] os = some A ∧ A.length = n ∧ (akeys A).Nodup ∧
      (∀ k ∈ akeys A, k < n) ∧
      (∀ p ∈ A, ∀ q ∈ A, p.1 ≠ q.1 → ¬ Attacks p.1 p.2 q.1 q.2) := by
  obtain ⟨S, hSv, hSp⟩ := exists_solution n h4 h100
  have hsolve : solve n [] os = (backtrackAux n (n + 1) [] (initDomains n [])).1 := by
    unfold solve
    rw [if_pos h100]
    unfold backtrackSearch
    rw [ac3_full n h4]
  have hnd : (akeys ([] : AList)).Nodup := List.nodup_nil
  have hklt : ∀ k ∈ akeys ([] : AList), k < n := by
    intro k hk
    cases hk
  have hcomp := backtrackAux_complete hSp (n + 1) [] (initDomains n [])
    hnd hklt (fun p hp => by cases hp)
    (fun r hr _ => by rw [initDomains_nil]; exact Finset.mem_range.2 (hSv r hr))
    (by simp)
  obtain ⟨A, hA⟩ := Option.isSome_iff_exists.1 hcomp
  obtain ⟨hlen, hnd', hklt', hnc⟩ := backtrackAux_sound (n + 1) [] (initDomains n []) A
    hnd hklt (fun p hp => by cases hp) hA
  exact ⟨A, by rw [hsolve]; exact hA, hlen, hnd', hklt', hnc⟩

/-- Witness for the amended C1 at n = 8. -/
theorem nq_C1_amended_witness :
    ∃ A, solve 8 [] osZero = some A ∧ A.length = 8 ∧ (akeys A).Nodup ∧
      (∀ k ∈ akeys A, k < 8) ∧
      (∀ p ∈ A, ∀ q ∈ A, p.1 ≠ q.1 → ¬ Attacks p.1 p.2 q.1 q.2) :=
  nq_C1_amended 8 osZero (by decide) (by decide)

/-- Witness for the amended C3 at a concrete input file: three lines with
row 0's column 10 out of range. -/
theorem nq_C3_amended_witness :
    readInput [some 10, some 0, none] = readInput ([some 10, some 0, none].set 0 none) ∧
      0 ∉ akeys (readInput [some 10, some 0, none]) ∧
      ∀ n os, solve n (readInput [some 10, some 0, none]) os
        = solve n (readInput ([some 10, some 0, none].set 0 none)) os :=
  nq_C3_amended [some 10, some 0, none] 0 10 (by decide) (by decide)

end NQ

